import Mathlib

/-!
Verification development for the BETO_NLP scientific-text preprocessing
pipeline (class SciTextProcessor in src/modules, file
preprocessing-checkpoint.py).  The Python source is shallowly embedded:
texts are lists of characters, Python dicts are insertion-ordered
association lists, external collaborators (chemdataextractor, pubchempy,
mat2vec, ChemWordTokenizer) are taken as function parameters, and Python
slice and index semantics are modelled explicitly (including negative
indices).  Machine integers are modelled as Int or Nat as appropriate;
Python integers are unbounded so no wraparound is needed.
-/

namespace BetoNlp

/-! ## Python string and list primitives -/

/-- Interpretation of a Python slice bound `i` against a sequence of length
`len`: a negative bound counts from the end (clamped below at 0), a
nonnegative bound is clamped above at `len`. -/
def pyBound (len : Nat) (i : Int) : Nat :=
  if i < 0 then ((len : Int) + i).toNat else min i.toNat len

/-- Python slice `s[:i]`. -/
def pyTake (s : List Char) (i : Int) : List Char :=
  s.take (pyBound s.length i)

/-- Python slice `s[i:]`. -/
def pyDrop (s : List Char) (i : Int) : List Char :=
  s.drop (pyBound s.length i)

/-- Python slice `s[i:j]`. -/
def pySlice (s : List Char) (i j : Int) : List Char :=
  (s.take (pyBound s.length j)).drop (pyBound s.length i)

/-- Python indexing `s[i]`: negative indices count from the end, an index
out of range raises IndexError (modelled by `none`). -/
def pyCharAt (s : List Char) (i : Int) : Option Char :=
  if 0 ≤ i then s.get? i.toNat
  else if 0 ≤ (s.length : Int) + i then s.get? ((s.length : Int) + i).toNat
  else none

/-! ## Python dict model: insertion-ordered association lists.  Writing to
an existing key updates it in place; writing a fresh key appends. -/

/-- Python `k in m.keys()`. -/
def dictHas (m : List (String × α)) (k : String) : Bool :=
  match m with
  | [] => false
  | (a, _) :: rest => a == k || dictHas rest k

/-- Python `m[k] = v` on an insertion-ordered dict: updating an existing
key keeps its position, a fresh key is appended. -/
def dictSet (m : List (String × α)) (k : String) (v : α) : List (String × α) :=
  if dictHas m k then
    m.map (fun p => if p.1 = k then (k, v) else p)
  else
    m ++ [(k, v)]

/-- Python `m.get(k)`: the value of the first entry with the key. -/
def dictGet? (m : List (String × α)) (k : String) : Option α :=
  match m with
  | [] => none
  | (a, b) :: rest => if k = a then some b else dictGet? rest k

/-- The same dict model for integer keys (used by entities_per_text). -/
def ndictSet (m : List (Nat × α)) (k : Nat) (v : α) : List (Nat × α) :=
  if m.any (fun p => p.1 == k) then
    m.map (fun p => if p.1 = k then (k, v) else p)
  else
    m ++ [(k, v)]

/-- Lookup for the integer-keyed dict model. -/
def ndictGet? (m : List (Nat × α)) (k : Nat) : Option α :=
  match m with
  | [] => none
  | (a, b) :: rest => if k = a then some b else ndictGet? rest k

/-- The numpy argmin of a list of naturals: index of the first occurrence
of the minimum.  numpy raises ValueError on an empty input; callers in the
source only reach it with a nonempty list, the value 0 here is unused. -/
def npArgmin (l : List Nat) : Nat :=
  go l 0 0 0
where
  go : List Nat → Nat → Nat → Nat → Nat
    | [], _, best, _ => best
    | y :: ys, bv, bi, i =>
        if i = 0 then go ys y 0 1
        else if y < bv then go ys y i (i + 1)
        else go ys bv bi (i + 1)

/-- Python str.lower modelled characterwise with the ASCII case mapping
of Char.toLower (Python lowercases more of Unicode; the texts and names
here are ASCII). -/
def pyLower (t : String) : String :=
  String.mk (t.data.map Char.toLower)

/-- Stable insertion into a sorted list: the new element goes in front of
the first element it compares at-most-equal to, so earlier elements stay
in front of later equal ones. -/
def stableInsert (le : α → α → Bool) (x : α) : List α → List α
  | [] => [x]
  | y :: ys => if le x y then x :: y :: ys else y :: stableInsert le x ys

/-- Model of the Python stable ascending sort (list.sort and sorted): a
stable insertion sort.  Python uses a stable mergesort; for a total
preorder comparator the stable ascending result is unique, so the two
agree. -/
def stableSort (le : α → α → Bool) : List α → List α
  | [] => []
  | x :: xs => stableInsert le x (stableSort le xs)

/-! ## Element tables and the regex models of the source patterns -/

/-- Element symbols, in the order given in the source (self.ELEMENTS). -/
def ELEMENTS : List String :=
  ["H", "He", "Li", "Be", "B", "C", "N", "O", "F", "Ne", "Na", "Mg", "Al", "Si", "P", "S", "Cl", "Ar", "K",
   "Ca", "Sc", "Ti", "V", "Cr", "Mn", "Fe", "Co", "Ni", "Cu", "Zn", "Ga", "Ge", "As", "Se", "Br", "Kr",
   "Rb", "Sr", "Y", "Zr", "Nb", "Mo", "Tc", "Ru", "Rh", "Pd", "Ag", "Cd", "In", "Sn", "Sb", "Te", "I",
   "Xe", "Cs", "Ba", "La", "Ce", "Pr", "Nd", "Pm", "Sm", "Eu", "Gd", "Tb", "Dy", "Ho", "Er", "Tm", "Yb",
   "Lu", "Hf", "Ta", "W", "Re", "Os", "Ir", "Pt", "Au", "Hg", "Tl", "Pb", "Bi", "Po", "At", "Rn", "Fr",
   "Ra", "Ac", "Th", "Pa", "U", "Np", "Pu", "Am", "Cm", "Bk", "Cf", "Es", "Fm", "Md", "No", "Lr", "Rf",
   "Db", "Sg", "Bh", "Hs", "Mt", "Ds", "Rg", "Cn", "Nh", "Fl", "Mc", "Lv", "Ts", "Og", "Uue"]

/-- Full element names, in the order given in the source (self.ELEMENT_NAMES). -/
def ELEMENT_NAMES : List String :=
  ["hydrogen", "helium", "lithium", "beryllium", "boron", "carbon", "nitrogen", "oxygen", "fluorine",
   "neon", "sodium", "magnesium", "aluminium", "silicon", "phosphorus", "sulfur", "chlorine", "argon",
   "potassium", "calcium", "scandium", "titanium", "vanadium", "chromium", "manganese", "iron",
   "cobalt", "nickel", "copper", "zinc", "gallium", "germanium", "arsenic", "selenium", "bromine",
   "krypton", "rubidium", "strontium", "yttrium", "zirconium", "niobium", "molybdenum", "technetium",
   "ruthenium", "rhodium", "palladium", "silver", "cadmium", "indium", "tin", "antimony", "tellurium",
   "iodine", "xenon", "cesium", "barium", "lanthanum", "cerium", "praseodymium", "neodymium",
   "promethium", "samarium", "europium", "gadolinium", "terbium", "dysprosium", "holmium", "erbium",
   "thulium", "ytterbium", "lutetium", "hafnium", "tantalum", "tungsten", "rhenium", "osmium",
   "iridium", "platinum", "gold", "mercury", "thallium", "lead", "bismuth", "polonium", "astatine",
   "radon", "francium", "radium", "actinium", "thorium", "protactinium", "uranium", "neptunium",
   "plutonium", "americium", "curium", "berkelium", "californium", "einsteinium", "fermium",
   "mendelevium", "nobelium", "lawrencium", "rutherfordium", "dubnium", "seaborgium", "bohrium",
   "hassium", "meitnerium", "darmstadtium", "roentgenium", "copernicium", "nihonium", "flerovium",
   "moscovium", "livermorium", "tennessine", "oganesson", "ununennium"]

/-- The dict built by zipping ELEMENTS with ELEMENT_NAMES (self.element_dict).
Lookup of a symbol that is not an element would raise KeyError in Python; it
is only reached on symbols produced by the valence pattern, which are always
elements, so the default value is unreachable. -/
def element_dict (e : String) : String :=
  ((ELEMENTS.zip ELEMENT_NAMES).lookup e).getD ""

/-- The suffix alternative of the Roman-numeral body of VALENCE_REGX: the
subpattern reading an optional V or v followed by at most three I or i. -/
def romanTail (s : List Char) : Bool :=
  decide (s.length ≤ 3) && s.all (fun c => c == 'I' || c == 'i')

/-- The body of the parenthesised group of VALENCE_REGX, the alternation
between the one-character class reading I, V, the bar character, i or v, and
the optional-V-plus-Roman-ones subpattern. -/
def romanInnerMatch (s : List Char) : Bool :=
  (match s with
   | [c] => c == 'I' || c == 'V' || c == '|' || c == 'i' || c == 'v'
   | _ => false)
  ||
  (match s with
   | c :: t => if c == 'V' || c == 'v' then romanTail t else romanTail s
   | [] => true)

/-- Model of VALENCE_REGX.match: the whole string must be one element
symbol followed by a parenthesised Roman-numeral body.  Since no element
symbol contains a parenthesis and the body must run to the end of the
string, the regex match succeeds exactly when the text before the first
opening parenthesis is an element symbol and everything from it on is the
parenthesised body.  Returns (group 1, group 2) on success. -/
def valenceMatch (t : String) : Option (String × String) :=
  let s := t.data
  let pre := s.takeWhile (fun c => c ≠ '(')
  let post := s.dropWhile (fun c => c ≠ '(')
  match post with
  | '(' :: rest =>
      if ELEMENTS.contains (String.mk pre) then
        if rest.getLast? = some ')' ∧ romanInnerMatch rest.dropLast then
          some (String.mk pre, String.mk ('(' :: rest))
        else none
      else none
  | _ => none

/-- Model of FORMULA_REGX: fuel-indexed decision of whether a character
list decomposes into a concatenation of element symbols and single digits.
Each token is nonempty, so fuel equal to the length of the list suffices. -/
def formulaAux : Nat → List Char → Bool
  | _, [] => true
  | 0, _ :: _ => false
  | fuel + 1, s =>
      (s.headD ' ' |>.isDigit) && formulaAux fuel s.tail
      ||
      ELEMENTS.any (fun e => e.data.isPrefixOf s && formulaAux fuel (s.drop e.data.length))

/-- Model of FORMULA_REGX.match: a nonempty string made of element symbols
and digits. -/
def formulaMatch (t : String) : Bool :=
  !t.data.isEmpty && formulaAux t.data.length t.data

/-! ## Units and the token-splitting rule -/

/-- Unit suffixes recognised by the splitting rule (self.SPLIT_UNITS),
verbatim from the source, duplicates included. -/
def SPLIT_UNITS : List String :=
  ["K", "h", "V", "wt", "wt.", "MHz", "kHz", "GHz", "Hz", "days", "weeks",
   "hours", "minutes", "seconds", "T", "MPa", "GPa", "at.", "mol.",
   "at", "m", "N", "s-1", "vol.", "vol", "eV", "A", "atm", "bar",
   "kOe", "Oe", "h.", "mWcm−2", "keV", "MeV", "meV", "day", "week", "hour",
   "minute", "month", "months", "year", "cycles", "years", "fs", "ns",
   "ps", "rpm", "g", "mg", "mAcm−2", "mA", "mK", "mT", "s-1", "dB",
   "Ag-1", "mAg-1", "mAg−1", "mAg", "mAh", "mAhg−1", "m-2", "mJ", "kJ",
   "m2g−1", "THz", "KHz", "kJmol−1", "Torr", "gL-1", "Vcm−1", "mVs−1",
   "J", "GJ", "mTorr", "bar", "cm2", "mbar", "kbar", "mmol", "mol", "molL−1",
   "MΩ", "Ω", "kΩ", "mΩ", "mgL−1", "moldm−3", "m2", "m3", "cm-1", "cm",
   "Scm−1", "Acm−1", "eV−1cm−2", "cm-2", "sccm", "cm−2eV−1", "cm−3eV−1",
   "kA", "s−1", "emu", "L", "cmHz1", "gmol−1", "kVcm−1", "MPam1",
   "cm2V−1s−1", "Acm−2", "cm−2s−1", "MV", "ionscm−2", "Jcm−2", "ncm−2",
   "Jcm−2", "Wcm−2", "GWcm−2", "Acm−2K−2", "gcm−3", "cm3g−1", "mgl−1",
   "mgml−1", "mgcm−2", "mΩcm", "cm−2s−1", "cm−2", "ions", "moll−1",
   "nmol", "psi", "mol·L−1", "Jkg−1K−1", "km", "Wm−2", "mass", "mmHg",
   "mmmin−1", "GeV", "m−2", "m−2s−1", "Kmin−1", "gL−1", "ng", "hr", "w",
   "mN", "kN", "Mrad", "rad", "arcsec", "Ag−1", "dpa", "cdm−2",
   "cd", "mcd", "mHz", "m−3", "ppm", "phr", "mL", "ML", "mlmin−1", "MWm−2",
   "Wm−1K−1", "Wm−1K−1", "kWh", "Wkg−1", "Jm−3", "m-3", "gl−1", "A−1",
   "Ks−1", "mgdm−3", "mms−1", "ks", "appm", "ºC", "HV", "kDa", "Da", "kG",
   "kGy", "MGy", "Gy", "mGy", "Gbps", "μB", "μL", "μF", "nF", "pF", "mF",
   "A", "Å", "A˚", "μgL−1"]

/-- The character class of the second group of UNIT_REGX: Latin-script
letters (modelled as alphabetic characters), the bar character, Ω and μ. -/
def unitClassChar (c : Char) : Bool :=
  c.isAlpha || c == '|' || c == 'Ω' || c == 'μ'

/-- The maximal-munch numeric part of the first group of UNIT_REGX, the
sign-digits-optional-dot-digits core.  Returns the consumed prefix and the
remainder; none when the core cannot match at the front. -/
def numCore (s : List Char) : Option (List Char × List Char) :=
  let (sign, s1) :=
    match s with
    | c :: rest => if c == '+' || c == '-' then ([c], rest) else ([], s)
    | [] => ([], s)
  let d1 := s1.takeWhile Char.isDigit
  let r1 := s1.dropWhile Char.isDigit
  match r1 with
  | '.' :: r2 =>
      let d2 := r2.takeWhile Char.isDigit
      let r3 := r2.dropWhile Char.isDigit
      if d2.isEmpty then
        if d1.isEmpty then none else some (sign ++ d1, r1)
      else some (sign ++ d1 ++ ['.'] ++ d2, r3)
  | _ => if d1.isEmpty then none else some (sign ++ d1, r1)

/-- The optional parenthesised-digits tail of the first group of
UNIT_REGX, the opening-paren-digits-closing-paren subpattern with the
closing paren possessive. -/
def parenTail (s : List Char) : List Char × List Char :=
  match s with
  | '(' :: r =>
      let d := r.takeWhile Char.isDigit
      let r2 := r.dropWhile Char.isDigit
      match r2 with
      | ')' :: r3 => ('(' :: d ++ [')'], r3)
      | _ => ('(' :: d, r2)
  | _ => ([], s)

/-- Model of UNIT_REGX.match applied to a token: group 1 is the maximal
numeric prefix, group 2 is the whole remainder, which must be nonempty and
open with a character of the Latin-or-bar-or-Ω-or-μ class.  No shorter
group 1 can succeed when the maximal one fails, because shrinking it only
exposes digits, dots or parentheses, none of which is in the class. -/
def unitMatch (t : String) : Option (String × String) :=
  match numCore t.data with
  | none => none
  | some (core, rest) =>
      let (par, rest2) := parenTail rest
      match rest2 with
      | [] => none
      | c :: _ =>
          if unitClassChar c then some (String.mk (core ++ par), String.mk rest2)
          else none

/-- Embedding of SciTextProcessor.split_token: split a number-unit token
into its number and its unit when the unit suffix is recognised. -/
def split_token (token : String) : List String :=
  match unitMatch token with
  | some (g1, g2) => if SPLIT_UNITS.contains g2 then [g1, g2] else [token]
  | none => [token]

/-! ## Entity-resolver data model

The chemical entity recogniser and the PubChem lookup are external
collaborators; a recognised mention and a lookup result are modelled as
plain records, and the lookup service as a function parameter.  A lookup
that times out on all attempts returns the empty list in the source
(search_pubchem), so timeout degradation is absorbed into the lookup
function itself. -/

/-- A chemical entity mention returned by the external recogniser
(chemdataextractor cem): surface text plus a half-open character span. -/
structure Cem where
  text : String
  start : Nat
  stop : Nat
deriving DecidableEq, Repr

/-- A compound record returned by the external chemical-database lookup. -/
structure Compound where
  cid : Option Int
  iupac_name : Option String
deriving DecidableEq, Repr

/-- One stored entity record: replacement name, rewritten start, rewritten
stop, original surface name (the tuples stored in entities_per_text). -/
abbrev EntityRecord := String × Int × Int × String

/-- The mutable state of a SciTextProcessor relevant to normalization. -/
structure PState where
  normalized_texts : List (List Char) := []
  entity_counts : List (String × Nat) := []
  entities_per_text : List (Nat × List EntityRecord) := []
  entity_to_cid : List (String × Option Int × Option String) := []
  entity_to_synonyms : List (String × List String) := []
deriving DecidableEq, Repr

/-- Python `self.entity_counts[k] += 1`.  In Python this raises KeyError
when the key is absent; in every flow modelled here the key is always
present (seeded by the hardcoded table or set on first resolution), so the
default 0 is unreachable there. -/
def bumpCount (m : List (String × Nat)) (k : String) : List (String × Nat) :=
  dictSet m k ((dictGet? m k).getD 0 + 1)

/-- The mention-name computation at the top of the cems loop of
normalize_chemical_entities: the valence-pattern substitution followed by
the compound-formula case rule. -/
def caseNormalizedName (t : String) : String :=
  if formulaMatch t then t else pyLower t

/-- Full name transformation applied to a raw mention before any cache
test or lookup. -/
def mentionName (t : String) : String :=
  match valenceMatch t with
  | some (elem, valence) => caseNormalizedName (element_dict elem ++ valence)
  | none => caseNormalizedName t

/-- One iteration of the cems loop of normalize_chemical_entities
(the extraction-and-resolution phase).  The accumulator carries the
processor state, the entity list under construction, and the log of names
sent to the external lookup, which the source sends via search_pubchem. -/
def processCem (lookup : String → List Compound)
    (acc : PState × List (String × Nat × Nat) × List String) (cem : Cem) :
    PState × List (String × Nat × Nat) × List String :=
  let (st, entity_list, queries) := acc
  let name := mentionName cem.text
  let entity_list := entity_list ++ [(name, cem.start, cem.stop)]
  if dictHas st.entity_to_cid name then
    match dictGet? st.entity_to_cid name with
    | some (_, some iupac) =>
        ({ st with entity_counts := bumpCount st.entity_counts iupac }, entity_list, queries)
    | _ =>
        ({ st with entity_counts := bumpCount st.entity_counts name }, entity_list, queries)
  else
    let queries := queries ++ [name]
    match lookup name with
    | [] =>
        ({ st with entity_to_cid := dictSet st.entity_to_cid name (none, none),
                   entity_counts := dictSet st.entity_counts name 1 }, entity_list, queries)
    | c :: _ =>
        match c.iupac_name with
        | some iupac =>
            let cid' := dictSet st.entity_to_cid name (c.cid, some iupac)
            let syn' :=
              if dictHas st.entity_to_synonyms iupac then
                dictSet st.entity_to_synonyms iupac
                  ((dictGet? st.entity_to_synonyms iupac).getD [] ++ [name])
              else
                dictSet st.entity_to_synonyms iupac [name]
            ({ st with entity_to_cid := cid', entity_to_synonyms := syn',
                       entity_counts := dictSet st.entity_counts iupac 1 }, entity_list, queries)
        | none =>
            ({ st with entity_to_cid := dictSet st.entity_to_cid name (c.cid, none),
                       entity_counts := dictSet st.entity_counts name 1 }, entity_list, queries)

/-- Replacement-name choice of the rewrite loop: the cached IUPAC name if
present, else the surface name itself.  In the source an absent key would
raise KeyError; within normalize_chemical_entities every name in the
entity list has been inserted by the cems loop, so the fallthrough is
unreachable there. -/
def replacementFor (cid : List (String × Option Int × Option String)) (name : String) : String :=
  match dictGet? cid name with
  | some (_, some iupac) => iupac
  | _ => name

/-- The offset-tracking rewrite loop of normalize_chemical_entities
(verbose and write_bold off): splice each replacement at the drifted
coordinates, update the drift, and record the rewritten span, exactly as
the source does with Python slices. -/
def rewriteEntities (cid : List (String × Option Int × Option String)) :
    List Char → Int → List (String × Nat × Nat) → List Char × Int × List EntityRecord
  | text, index_change, [] => (text, index_change, [])
  | text, index_change, (name, start, stop) :: rest =>
      let replacement_name := replacementFor cid name
      let replacement_delta : Int := (replacement_name.length : Int) - ((stop : Int) - (start : Int))
      let text' := pyTake text ((start : Int) + index_change) ++ replacement_name.data ++
                   pyDrop text ((stop : Int) + index_change)
      let ic' := index_change + replacement_delta
      let res := rewriteEntities cid text' ic' rest
      (res.1, res.2.1,
       (replacement_name, (start : Int) + ic' - replacement_delta, (stop : Int) + ic', name) :: res.2.2)

/-- The hardcoded-override seeding at the top of every call of
normalize_chemical_entities: the ambiguous-name table, the seeded synonym
lists, and the count loop over every entry of entity_to_cid. -/
def seedHardcoded (st : PState) : PState :=
  let cid := dictSet st.entity_to_cid "CO" (some 281, some "carbon monoxide")
  let cid := dictSet cid "Co" (some 104730, some "cobalt")
  let cid := dictSet cid "NO" (some 145068, some "nitric oxide")
  let cid := dictSet cid "No" (some 24822, some "nobelium")
  let cid := dictSet cid "sugar" (none, none)
  let cid := dictSet cid "chloro" (none, none)
  let cid := dictSet cid "alcohol" (none, none)
  let syn := dictSet st.entity_to_synonyms "carbon monoxide" ["CO"]
  let syn := dictSet syn "cobalt" ["Co"]
  let syn := dictSet syn "nitric oxide" ["NO"]
  let syn := dictSet syn "nobelium" ["No"]
  let counts := cid.foldl (fun cts p =>
    match p.2.2 with
    | none => dictSet cts p.1 1
    | some nm => dictSet cts nm 1) st.entity_counts
  { st with entity_to_cid := cid, entity_to_synonyms := syn, entity_counts := counts }

/-- Processing of a single text inside normalize_chemical_entities, with
remove_abbreviations off: the cems loop, the stable sort of the entity
list by start position, the offset-tracking rewrite, and the recording of
results.  The cems of the text come from the external recogniser. -/
def normalizeOneText (lookup : String → List Compound) (st : PState) (i : Nat)
    (input : List Char × List Cem) : PState :=
  let res := input.2.foldl (processCem lookup) (st, [], [])
  let sorted := stableSort (fun a b => a.2.1 ≤ b.2.1) res.2.1
  let res2 := rewriteEntities res.1.entity_to_cid input.1 0 sorted
  { res.1 with
    entities_per_text := ndictSet res.1.entities_per_text i res2.2.2,
    normalized_texts := res.1.normalized_texts ++ [res2.1] }

/-- The per-text loop of normalize_chemical_entities with its index offset
start_idx. -/
def normalizeLoop (lookup : String → List Compound) (st : PState) (start_idx : Nat)
    (texts : List (List Char × List Cem)) : PState :=
  texts.enum.foldl (fun st p => normalizeOneText lookup st (start_idx + p.1) p.2) st

/-- Embedding of normalize_chemical_entities (remove_abbreviations False,
save and verbose off): seed the hardcoded tables, then process each text
in order.  Each text comes paired with the mentions the external
recogniser reports for it. -/
def normalize_chemical_entities (lookup : String → List Compound) (st : PState)
    (texts : List (List Char × List Cem)) : PState :=
  let st := seedHardcoded st
  normalizeLoop lookup st st.normalized_texts.length texts

/-! ## Tokenizer: entity-aware splitting, token-list processing, sentences -/

/-- One item of the token_list built by extract_entity_tokens: either an
unparsed plain-text run (a Python str) or a one-element entity list. -/
inductive TokItem where
  | plain (s : List Char)
  | ent (s : List Char)
deriving DecidableEq, Repr

/-- The loop body of extract_entity_tokens over the entity spans, with the
running prev_start (which is the previous stop, possibly negative, hence
Int and Python slice semantics). -/
def eetLoop (text : List Char) : Int → List (Int × Int) → List TokItem
  | _, [] => []
  | prev_start, (start, stop) :: rest =>
      let text_add := pySlice text prev_start start
      (if text_add ≠ [] then [TokItem.plain text_add] else []) ++
      [TokItem.ent (pySlice text start stop)] ++
      (if rest.isEmpty then [TokItem.plain (pyDrop text stop)] else []) ++
      eetLoop text stop rest

/-- Embedding of SciTextProcessor.extract_entity_tokens. -/
def extract_entity_tokens (text : List Char) (entity_spans : List (Int × Int)) : List TokItem :=
  if entity_spans.length > 0 then eetLoop text 0 entity_spans
  else [TokItem.plain text]

/-- Embedding of SciTextProcessor.process_token_list.  The external
ChemWordTokenizer is the parameter cwt; each of its tokens goes through
split_token, and each entity run becomes one token whose index is
recorded. -/
def process_token_list (cwt : List Char → List String) (token_list : List TokItem) :
    List String × List (String × Nat) :=
  token_list.foldl (fun acc item =>
    match item with
    | .plain s =>
        let item_tokens := cwt s
        let split_tokens := item_tokens.foldl (fun ts t => ts ++ split_token t) []
        (acc.1 ++ split_tokens, acc.2)
    | .ent s =>
        let tokens := acc.1 ++ [String.mk s]
        (tokens, acc.2 ++ [(String.mk s, tokens.length - 1)])) ([], [])

/-- Embedding of the keep_sentences False branch of SciTextProcessor.tokenize
for one text: optional entity-aware preparation (underscore joining and
span collection), extract_entity_tokens, process_token_list, and the final
external mat2vec pass mtp.  With use_entities off the entity list is not
consulted at all, as in the source. -/
def tokenize_text (cwt : List Char → List String) (mtp : List String → List String)
    (text : List Char) (entities : List EntityRecord) (use_entities : Bool) :
    List String × List (String × Nat) :=
  let prepared :=
    if use_entities then
      entities.foldl (fun (acc : List Char × List (Int × Int)) e =>
        let (t, spans) := acc
        let start := e.2.1
        let stop := e.2.2.1
        let spans := spans ++ [(start, stop)]
        let new_name := e.1.replace " " "_"
        (pyTake t start ++ new_name.data ++ pyDrop t stop, spans)) (text, [])
    else (text, [])
  let token_list := extract_entity_tokens prepared.1 prepared.2
  let (tokens, entity_idxs) := process_token_list cwt token_list
  (mtp tokens, entity_idxs)

/-- The span filter-and-remap step of the keep_sentences branch of
tokenize: keep a span when its stop is strictly below the sentence end and
its start is at or after the previous sentence end, and shift the kept
span by subtracting split, exactly as the source line new_span does. -/
def sentenceEntities (entity_spans : List (Int × Int)) (split prior_split : Nat) :
    List (Int × Int) :=
  entity_spans.filterMap fun span =>
    if span.2 < (split : Int) ∧ span.1 ≥ (prior_split : Int) then
      some (span.1 - (split : Int), span.2 - (split : Int))
    else none

/-- Embedding of the keep_sentences True branch of tokenize for one text:
fold over the sentences delivered by the external sentence segmenter
(text plus end offset), with prior_split carried between sentences. -/
def tokenizeSentences (cwt : List Char → List String) (mtp : List String → List String)
    (entity_spans : List (Int × Int)) (sentences : List (List Char × Nat)) :
    List (List String) × List (List (String × Nat)) :=
  let step := fun (acc : List (List String) × List (List (String × Nat)) × Nat)
                  (sent : List Char × Nat) =>
    let (tokens, idxs, prior_split) := acc
    let split := sent.2
    let sentence_entities := sentenceEntities entity_spans split prior_split
    let token_list := extract_entity_tokens sent.1 sentence_entities
    let (sentence_tokens, sentence_entity_idxs) := process_token_list cwt token_list
    (tokens ++ [mtp sentence_tokens], idxs ++ [sentence_entity_idxs], split)
  let folded := sentences.foldl step ([], [], 0)
  (folded.1, folded.2.1)

/-! ## Abbreviation eliminator -/

/-- One abbreviation definition returned by the external extractor
(chemdataextractor abbreviation_definitions): abbreviation tokens, full
form tokens, and the optional type tag tested against None. -/
structure AbbvDef where
  short : List String
  long : List String
  typ : Option String
deriving DecidableEq, Repr

/-- The escape loop of remove_abbreviations: a backslash is inserted in
front of every plus character (the only member of escape_chars). -/
def escapePlus (s : String) : String :=
  String.mk (s.data.foldl (fun acc c => acc ++ (if c == '+' then ['\\', c] else [c])) [])

/-- The literal string denoted by an escaped abbreviation name when it is
compiled as a regex: backslash-plus denotes plus. -/
def unescapePlus : List Char → List Char
  | [] => []
  | [c] => [c]
  | c :: d :: rest =>
      if c = '\\' ∧ d = '+' then '+' :: unescapePlus rest
      else c :: unescapePlus (d :: rest)

/-- Delimiter class of the substitution pattern of remove_abbreviations:
period, comma, semicolon or whitespace. -/
def abbvDelim (c : Char) : Bool :=
  c == '.' || c == ',' || c == ';' || c.isWhitespace

/-- Literal-pattern semantics of the re.sub call of remove_abbreviations
(the case in which the interpolated key denotes a literal string, see
pyReSubAbbv below): scan left to right;
at a whitespace character followed by the abbreviation and then a
delimiter (or the end of the string), emit a space, the full form and the
delimiter, and resume after the consumed delimiter; otherwise advance one
character.  The end-of-string anchor is modelled as the true end (the
Python dollar would also match just before one trailing newline).
Fuel-indexed: every step consumes at least one character, so fuel equal to
the length of the text suffices and the fuel-exhausted branch is
unreachable from subAbbv. -/
def subAbbvF (A full : List Char) : Nat → List Char → List Char
  | 0, s => s
  | _ + 1, [] => []
  | fuel + 1, c :: rest =>
      if c.isWhitespace && A.isPrefixOf rest then
        match rest.drop A.length with
        | [] => ' ' :: full
        | d :: rest2 =>
            if abbvDelim d then (' ' :: full) ++ d :: subAbbvF A full fuel rest2
            else c :: subAbbvF A full fuel rest
      else c :: subAbbvF A full fuel rest

/-- The re.sub substitution of remove_abbreviations on a literal
pattern. -/
def subAbbv (A full : List Char) (s : List Char) : List Char :=
  subAbbvF A full s.length s

/-- The number of replacements performed by the subAbbvF scan. -/
def countSubF (A : List Char) : Nat → List Char → Nat
  | 0, _ => 0
  | _ + 1, [] => 0
  | fuel + 1, c :: rest =>
      if c.isWhitespace && A.isPrefixOf rest then
        match rest.drop A.length with
        | [] => 1
        | d :: rest2 =>
            if abbvDelim d then 1 + countSubF A fuel rest2
            else countSubF A fuel rest
      else countSubF A fuel rest

/-- The number of replacements performed by the subAbbv scan on a string. -/
def countSub (A : List Char) (s : List Char) : Nat :=
  countSubF A s.length s

/-- The characters that are special in a Python regular expression.  The
escape loop of remove_abbreviations escapes only the plus sign, so a dict
key containing any other of these denotes a non-literal pattern when
interpolated into the substitution regex. -/
def reSpecialChars : List Char :=
  ['.', '^', '$', '*', '+', '?', '\x7b', '\x7d', '[', ']', '\\', '|', '(', ')']

/-- Model of the re.sub call of remove_abbreviations, with the stored dict
key interpolated into the pattern between the whitespace group and the
delimiter group.  Only plus signs were escaped when the key was built, so
the compiled pattern matches the key literally exactly when the unescaped
key contains no special character other than the escaped plus; the
literal scan subAbbv is the semantics of that case.  A key holding any
other special character makes the source wildcard-match, shift the
parenthesis backreference of the replacement, or raise re.error; the
literal scan renders none of those, so the model reports such a pattern
as an error instead of answering for it. -/
def pyReSubAbbv (escAbbv : String) (full text : List Char) : Except String (List Char) :=
  let lit := unescapePlus escAbbv.data
  if lit.all (fun c => c == '+' || !(reSpecialChars.contains c)) then
    .ok (subAbbv lit full text)
  else .error "re-pattern-not-modelled"

/-- The low_idx computation of remove_abbreviations for one abbreviation
name: the start of the earliest cem whose text equals the (escaped) name,
and the sentinel 0 when no cem matches. -/
def cemLow (cems : List Cem) (key : String) : Nat :=
  let cem_starts := (cems.filter (fun c => c.text == key)).map (fun c => c.start)
  if cem_starts.length > 0 then cem_starts.getD (npArgmin cem_starts) 0 else 0

/-- The abbv_dict construction of remove_abbreviations: skip definitions
whose last component is None, key by the escaped first abbreviation token,
store the space-joined full form and the low index. -/
def buildAbbvDict (cems : List Cem) (abbvs : List AbbvDef) : List (String × String × Nat) :=
  abbvs.foldl (fun dict abbv =>
    match abbv.typ with
    | none => dict
    | some _ =>
        let abbv_name := escapePlus (abbv.short.headD "")
        let non_abbv := String.intercalate " " abbv.long
        dictSet dict abbv_name (non_abbv, cemLow cems abbv_name)) []

/-- One iteration of the rewrite loop of remove_abbreviations for a sorted
dict entry (abbreviation key, full form, low index), carrying text and
index_change.  Errors model the Python exceptions reachable on this path
(ValueError from numpy argmin of an empty list, IndexError from character
indexing out of range) and the out-of-model regex patterns reported by
pyReSubAbbv. -/
def abbvRewriteStep (abbv : String) (full text : List Char) (index_change : Int) (s e : Nat)
    (oc1 oc2 : Option Char) : Except String (List Char × Int) :=
  match oc1, oc2 with
  | some c1, some c2 =>
      let del := c1 == '(' && c2 == ')'
      let text1 := if del then
          pyTake text ((s : Int) - 2 + index_change) ++ pyDrop text ((e : Int) + 1 + index_change)
        else text
      let ic1 := if del then index_change + ((s : Int) - (e : Int) - 3) else index_change
      match pyReSubAbbv abbv full text1 with
      | .ok t2 => .ok (t2, ic1)
      | .error err => .error err
  | _, _ => .error "IndexError"

def processOneAbbv (cems : List Cem) (acc : List Char × Int) (entry : String × String × Nat) :
    Except String (List Char × Int) :=
  let (text, index_change) := acc
  let (abbv, non_abbv, low) := entry
  if low ≠ 0 then
    let matching := cems.filter (fun c => c.text == abbv)
    let cem_starts := matching.map (fun c => c.start)
    let cem_ends := matching.map (fun c => c.stop)
    if cem_starts.length = 0 then .error "ValueError"
    else
      let idx := if cem_starts.length = 1 then 0 else npArgmin cem_starts
      let s := cem_starts.getD idx 0
      let e := cem_ends.getD idx 0
      abbvRewriteStep abbv non_abbv.data text index_change s e
        (pyCharAt text ((s : Int) + index_change - 1))
        (pyCharAt text ((e : Int) + index_change))
  else .ok (text, index_change)

/-- Embedding of SciTextProcessor.remove_abbreviations.  The external
extractor results (abbreviation definitions and cems of the text) are
inputs; the dict is built, sorted stably by low index, and the rewrite
loop folds over it. -/
def remove_abbreviations (cems : List Cem) (abbvs : List AbbvDef) (text : List Char) :
    Except String (List Char) :=
  if abbvs.length > 0 then
    let dict := buildAbbvDict cems abbvs
    let sorted := stableSort (fun a b => a.2.2 ≤ b.2.2) dict
    match sorted.foldlM (processOneAbbv cems) (text, 0) with
    | .ok (t, _) => .ok t
    | .error e => .error e
  else .ok text

/-! ## Cleaning functions and the constructor loop -/

/-- Python str.split with an explicit separator: empty chunks are kept and
the empty string yields one empty chunk. -/
def pySplitOn (sep : Char) : List Char → List (List Char)
  | [] => [[]]
  | c :: rest =>
      match pySplitOn sep rest with
      | [] => [[]]
      | w :: ws => if c == sep then [] :: w :: ws else (c :: w) :: ws

/-- Python str.strip with no argument: whitespace removed from both ends. -/
def pyStrip (s : List Char) : List Char :=
  ((s.dropWhile Char.isWhitespace).reverse.dropWhile Char.isWhitespace).reverse

/-- Python str.split with no argument: the maximal runs of non-whitespace
characters. -/
def pyWords (s : List Char) : List (List Char) :=
  (s.splitOnP Char.isWhitespace).filter (fun w => w ≠ [])

/-- Python space.join over a list of words. -/
def joinSpace (ws : List (List Char)) : List Char :=
  (ws.intersperse [' ']).flatten

/-- Word characters of the HTML-tag pattern of remove_symbols (ASCII model
of the regex word class). -/
def isWordChar (c : Char) : Bool :=
  c.isAlphanum || c == '_'

/-- Recognition of one HTML-tag match of remove_symbols starting just
after an opening angle bracket: a run of word characters closed by the
closing bracket, or, as the second alternative of the pattern, a slash,
a run of word characters and the closing bracket.  Returns the remainder
after the match. -/
def tagRemainder (l : List Char) : Option (List Char) :=
  match l.dropWhile isWordChar with
  | '>' :: r => some r
  | _ => none

/-- Recognition of one HTML-tag match starting just after an opening angle
bracket: the first alternative reads word characters up to the closing
bracket, the second allows one leading slash. -/
def htmlTagEnd (rest : List Char) : Option (List Char) :=
  match tagRemainder rest with
  | some r => some r
  | none =>
      match rest with
      | '/' :: rest2 => tagRemainder rest2
      | _ => none

/-- Model of the re.sub removing HTML tags in remove_symbols: every match
of an angle-bracketed word (with optional leading slash) becomes one
space; the two alternatives are tried in pattern order at each position.
Fuel-indexed scan; a successful tag match always consumes at least the
bracket, so fuel equal to the length of the text suffices and the
fuel-exhausted branch is unreachable from subHtmlTags. -/
def subHtmlTagsF : Nat → List Char → List Char
  | 0, s => s
  | _, [] => []
  | fuel + 1, '<' :: rest =>
      (match htmlTagEnd rest with
       | some r => ' ' :: subHtmlTagsF fuel r
       | none => '<' :: subHtmlTagsF fuel rest)
  | fuel + 1, c :: rest => c :: subHtmlTagsF fuel rest

/-- The HTML-tag removing substitution of remove_symbols. -/
def subHtmlTags (s : List Char) : List Char :=
  subHtmlTagsF s.length s

/-- Embedding of SciTextProcessor.remove_symbols: copyright-marker
stripping, registered-mark removal, the discarded Crown Copywrite replace,
and HTML-tag removal.  The indexing of split[0] is only reached under the
membership guard, so the list is nonempty there. -/
def remove_symbols (abstract : List Char) : List Char :=
  let split := pyWords abstract
  let ca :=
    if split.contains "©".data then
      if split.headD [] ≠ "©".data then
        let index := split.findIdx (fun w => w == "©".data)
        joinSpace (split.take index)
      else
        if split.contains "B.V.".data then
          let new_idx := split.findIdx (fun w => w == "B.V.".data)
          joinSpace (split.drop (new_idx + 1))
        else if split.contains "B.V..".data then
          let new_idxs := split.findIdx (fun w => w == "B.V..".data)
          joinSpace (split.drop (new_idxs + 1))
        else
          joinSpace (split.drop 2)
    else abstract
  let ca :=
    if ca.contains '®' then
      let i := ca.findIdx (fun c => c == '®')
      ca.take i ++ ca.drop (i + 1)
    else ca
  subHtmlTags ca

/-- Section titles recognised by clean_abstract. -/
def section_titles : List (List Char) :=
  ["introduction", "purpose", "background", "scope and approach", "objective",
   "objectives", "materials and methods", "results", "conclusion", "conclusions",
   "key findings", "key findings and conclusions", "methodology", "methods",
   "study design", "clinical implications"].map String.data

/-- Embedding of SciTextProcessor.clean_abstract.  Python indexing of
info[0] (and of its first word) raises IndexError when the list is empty;
that path is modelled by the error case and is reachable only for
whitespace-only abstracts. -/
def clean_abstract (abstract : List Char) : Except String (List Char) :=
  let lines := pySplitOn '\n' abstract
  let info := (lines.map pyStrip).filter (fun l => l ≠ [])
  let cleaned : Except String (List Char) :=
    if info.length = 2 then .ok (info.getD 1 [])
    else if info.length = 1 then
      let first := info.getD 0 []
      match pyWords first with
      | [] => .error "IndexError"
      | w0 :: _ =>
          let w0l := w0.map Char.toLower
          if w0l = "abstract".data then .ok (joinSpace ((pyWords first).drop 1))
          else if w0l = "summary".data then .ok (joinSpace ((pyWords first).drop 1))
          else if decide ("objective".data <:+: w0l) then .ok (joinSpace ((pyWords first).drop 1))
          else .ok first
    else
      let info_lower := info.map (fun x => x.map Char.toLower)
      let sectioned := section_titles.any (fun t => info_lower.contains t)
      if sectioned then
        match info with
        | [] => .error "IndexError"
        | i0 :: irest =>
            if i0.map Char.toLower = "abstract".data then
              .ok (joinSpace (irest.filter (fun e => !(section_titles.contains (e.map Char.toLower)))))
            else if i0.map Char.toLower = "summary".data then
              .ok (joinSpace (irest.filter (fun e => !(section_titles.contains (e.map Char.toLower)))))
            else
              .ok (joinSpace (info.filter (fun e => !(section_titles.contains (e.map Char.toLower)))))
      else
        match info with
        | [] => .error "IndexError"
        | i0 :: irest =>
            let l := i0.map Char.toLower
            if l = "abstract".data ∨ l = "absract".data ∨ l = "abstact".data ∨ l = "abstractt".data then
              .ok (joinSpace irest)
            else if l = "summary".data ∨ l = "publisher summary".data ∨ l = "1. summary".data then
              .ok (joinSpace irest)
            else if i0 = ("This article has been retracted: please see Elsevier Policy on Article Withdrawal (https://www.elsevier.com/about/our-business/policies/article-withdrawal).").data then
              .ok ("Retracted".data)
            else
              .ok (joinSpace info)
  match cleaned with
  | .error e => .error e
  | .ok ca => .ok (remove_symbols ca)

/-- The abstract-cleaning loop of the SciTextProcessor constructor for
type abstract.  A None entry first writes the warning and then evaluates
self.dropped_idxs[i]; dropped_idxs can never be longer than i at that
point, so the Python indexing raises IndexError, modelled by the error
branch after the faithful bounds test.  A cleaned abstract shorter than
min_len (5) has its index appended to dropped_idxs. -/
def cleanLoop : List (Option (List Char)) → Nat → List (List Char) → List Nat →
    Except String (List (List Char) × List Nat)
  | [], _, clean, dropped => .ok (clean, dropped)
  | none :: rest, i, clean, dropped =>
      if i < dropped.length then cleanLoop rest (i + 1) clean dropped
      else .error "IndexError"
  | some abstract :: rest, i, clean, dropped =>
      match clean_abstract abstract with
      | .error e => .error e
      | .ok a =>
          if a.length < 5 then cleanLoop rest (i + 1) clean (dropped ++ [i])
          else cleanLoop rest (i + 1) (clean ++ [a]) dropped

/-- Embedding of the texts-cleaning part of the constructor: clean_texts
and dropped_idxs both start empty. -/
def initCleanAbstracts (texts : List (Option (List Char))) :
    Except String (List (List Char) × List Nat) :=
  cleanLoop texts 0 [] []

/-! ## Predicates and derived notions used by the statements -/

/-- Well-formedness of an operation list for the offset-tracking rewrite
loop: each span has start at most stop, consecutive spans do not overlap
(previous stop at most next start), hence starts ascend. -/
def opsChain : List (String × Nat × Nat) → Bool
  | [] => true
  | (_, start, stop) :: rest =>
      decide (start ≤ stop) &&
      (match rest with
       | [] => true
       | (_, start2, _) :: _ => decide (stop ≤ start2)) &&
      opsChain rest

/-- Cumulative length delta (the drift) contributed by the first k
operations of the rewrite loop. -/
def driftUpTo (cid : List (String × Option Int × Option String))
    (ops : List (String × Nat × Nat)) (k : Nat) : Int :=
  ((ops.take k).map (fun op =>
    ((replacementFor cid op.1).length : Int) - ((op.2.2 : Int) - (op.2.1 : Int)))).sum

/-- The occurrence count recorded for a name (0 when absent). -/
def countValue (st : PState) (k : String) : Nat :=
  (dictGet? st.entity_counts k).getD 0

/-- The key whose count the cems loop bumps for a cached mention: the
cached IUPAC name when present, the transformed surface name otherwise. -/
def bumpKeyFor (st : PState) (cem : Cem) : String :=
  match dictGet? st.entity_to_cid (mentionName cem.text) with
  | some (_, some iupac) => iupac
  | _ => mentionName cem.text

/-- The synonym list recorded for a canonical name (empty when absent). -/
def synList (st : PState) (k : String) : List String :=
  (dictGet? st.entity_to_synonyms k).getD []

/-! ## Concrete instances used by witnesses and counterexamples -/

/-- A one-entry cache mapping the surface XY to the canonical xylene. -/
def cidW : List (String × Option Int × Option String) :=
  [("XY", (some 1, some "xylene"))]

/-- A small text with one entity occurrence. -/
def textW : List Char := "ab XY cd".data

/-- One replacement operation over textW. -/
def opsW : List (String × Nat × Nat) := [("XY", 3, 5)]

/-- A lookup service resolving the surface oc to carbon monoxide and
nothing else. -/
def lookupW : String → List Compound :=
  fun n => if n == "oc" then [⟨some 111, some "carbon monoxide"⟩] else []

/-- An adversarial lookup service that reports a bogus compound for every
query. -/
def lookupJunk : String → List Compound :=
  fun _ => [⟨some 999, some "bogus"⟩]

/-- A one-text corpus whose single mention is the surface oc. -/
def textsW : List (List Char × List Cem) := [("oc".data, [⟨"oc", 0, 2⟩])]

/-- A mention of the ambiguous surface CO. -/
def cemCO : Cem := ⟨"CO", 0, 2⟩

/-- A mention matching the valence pattern. -/
def cemFe : Cem := ⟨"Fe(III)", 0, 7⟩

/-- A text with a parenthesised abbreviation definition and two adjacent
later occurrences. -/
def textC8 : List Char := "nuclear magnetic resonance (NMR) and NMR NMR.".data

/-- The mentions the recogniser reports on textC8. -/
def cemsC8 : List Cem := [⟨"NMR", 28, 31⟩, ⟨"NMR", 37, 40⟩, ⟨"NMR", 41, 44⟩]

/-- The abbreviation definition the extractor reports on textC8. -/
def abbvsC8 : List AbbvDef := [⟨["NMR"], ["nuclear", "magnetic", "resonance"], some "CM"⟩]

/-- The text remove_abbreviations actually produces on textC8: the second
adjacent occurrence is left unreplaced. -/
def resC8 : List Char := "nuclear magnetic resonance and nuclear magnetic resonance NMR.".data

/-- A single mention starting at character index 0. -/
def cemsC10 : List Cem := [⟨"DMF", 0, 3⟩]

/-! ## Helper lemmas about the dict model -/

theorem dictGet_cons {α} (a : String) (b : α) (m : List (String × α)) (k : String) :
    dictGet? ((a, b) :: m) k = if k = a then some b else dictGet? m k := rfl

theorem dictHas_cons {α} (a : String) (b : α) (m : List (String × α)) (k : String) :
    dictHas ((a, b) :: m) k = (a == k || dictHas m k) := rfl

theorem mapSet_cons {α} (a : String) (b : α) (m : List (String × α)) (k : String) (v : α) :
    ((a, b) :: m).map (fun p => if p.1 = k then (k, v) else p) =
      (if a = k then (k, v) else (a, b)) :: m.map (fun p => if p.1 = k then (k, v) else p) := rfl

theorem dictGet_mapSet_ne {α} (m : List (String × α)) (k k' : String) (v : α)
    (hk : k' ≠ k) :
    dictGet? (m.map (fun p => if p.1 = k then (k, v) else p)) k' = dictGet? m k' := by
  induction m with
  | nil => rfl
  | cons p m ih =>
      obtain ⟨a, b⟩ := p
      rw [mapSet_cons]
      by_cases hak : a = k
      · rw [if_pos hak, dictGet_cons, dictGet_cons, if_neg (hak ▸ hk), ih,
            if_neg (fun hx => hk (hak ▸ hx))]
      · rw [if_neg hak, dictGet_cons, dictGet_cons, ih]

theorem dictGet_mapSet_self {α} (m : List (String × α)) (k : String) (v : α)
    (hhas : dictHas m k = true) :
    dictGet? (m.map (fun p => if p.1 = k then (k, v) else p)) k = some v := by
  induction m with
  | nil => simp [dictHas] at hhas
  | cons p m ih =>
      obtain ⟨a, b⟩ := p
      rw [mapSet_cons]
      by_cases hak : a = k
      · rw [if_pos hak, dictGet_cons, if_pos (hak ▸ rfl)]
      · rw [dictHas_cons] at hhas
        have hka : k ≠ a := fun hx => hak hx.symm
        simp only [beq_iff_eq, Bool.or_eq_true] at hhas
        rcases hhas with h | h
        · exact absurd h hak
        · rw [if_neg hak, dictGet_cons, if_neg hka, ih h]

theorem dictGet_append_new {α} (m : List (String × α)) (k k' : String) (v : α)
    (hhas : dictHas m k = false) :
    dictGet? (m ++ [(k, v)]) k' = if k' = k then some v else dictGet? m k' := by
  induction m with
  | nil =>
      by_cases hk : k' = k
      · simp only [List.nil_append, dictGet_cons, if_pos hk]
      · simp only [List.nil_append, dictGet_cons, if_neg hk]
  | cons p m ih =>
      obtain ⟨a, b⟩ := p
      rw [dictHas_cons] at hhas
      simp only [Bool.or_eq_false_iff, beq_eq_false_iff_ne] at hhas
      rw [List.cons_append, dictGet_cons, dictGet_cons]
      by_cases hk' : k' = a
      · have hnk : k' ≠ k := fun hx => hhas.1 (by rw [← hk', hx])
        rw [if_pos hk', if_neg hnk, if_pos hk']
      · rw [if_neg hk', if_neg hk', ih hhas.2]

theorem dictGet_dictSet {α} (m : List (String × α)) (k k' : String) (v : α) :
    dictGet? (dictSet m k v) k' = if k' = k then some v else dictGet? m k' := by
  unfold dictSet
  rcases hhas : dictHas m k with _ | _
  · simp only [Bool.false_eq_true, if_false]
    exact dictGet_append_new m k k' v hhas
  · simp only [if_true]
    by_cases hk : k' = k
    · subst hk
      rw [dictGet_mapSet_self m k' v hhas]
      simp
    · rw [dictGet_mapSet_ne m k k' v hk]
      simp [hk]

theorem dictHas_eq_isSome {α} (m : List (String × α)) (k : String) :
    dictHas m k = (dictGet? m k).isSome := by
  induction m with
  | nil => rfl
  | cons p m ih =>
      obtain ⟨a, b⟩ := p
      rw [dictHas_cons, dictGet_cons]
      by_cases hk : k = a
      · simp [hk]
      · have : a ≠ k := fun hx => hk hx.symm
        simp [hk, this, ih]

/-! ## C2, C3: sentence remapping and the constructor loop -/

/-- C2: the claim states that each entity span kept for a sentence is
remapped into sentence-local coordinates by subtracting the sentence start
offset (the previous sentence end).  The code instead subtracts the
current sentence end: a span (0,5) lying inside a first sentence ending at
10 is recorded as (-10,-5) rather than (0,5), a negative, non-local span.
The keep condition itself (stop before the sentence end, start at or after
the previous end) does follow the claim. -/
theorem c2_sentence_remap_subtracts_end :
    sentenceEntities [(0, 5)] 10 0 = [(-10, -5)] ∧
    sentenceEntities [(0, 5)] 10 0 ≠ [(0, 5)] := by
  refine ⟨rfl, ?_⟩
  decide

/-- C3: the claim states that a corpus containing an absent (None)
abstract is handled with a warning, the index recorded in dropped_idxs and
no fatal error.  In the code the None branch evaluates dropped_idxs[i] on
a list that can never be longer than i, so construction raises IndexError:
the embedded constructor loop returns the IndexError outcome on the
one-element corpus [None]. -/
theorem c3_none_abstract_raises_index_error :
    initCleanAbstracts [none] = Except.error "IndexError" := rfl

/-! ## C9: zero-entity tokenization equivalence -/

/-- C9: tokenizing a text that contains zero entity mentions with
entity-awareness enabled gives exactly the token sequence of tokenizing
with entity-awareness disabled, and an empty entity index map, for every
external word tokenizer and mat2vec postprocessor. -/
theorem c9_zero_entities_equivalence (cwt : List Char → List String)
    (mtp : List String → List String) (text : List Char) :
    tokenize_text cwt mtp text [] true = tokenize_text cwt mtp text [] false ∧
    (tokenize_text cwt mtp text [] true).2 = [] := by
  exact ⟨rfl, rfl⟩

/-! ## C10: the zero sentinel of remove_abbreviations -/

/-- C10: an abbreviation whose earliest matching entity span starts at
character index 0 gets low index 0, the same sentinel as an abbreviation
with no matching span at all, and the rewrite iteration for such an entry
changes nothing: no parenthetical deletion, no substitution, text and
index_change returned unchanged. -/
theorem c10_zero_low_sentinel_skips (cems : List Cem) (text : List Char) (ic : Int)
    (key full : String)
    (h : cemLow cems key = 0 ∨ ∀ c ∈ cems, c.text ≠ key) :
    processOneAbbv cems (text, ic) (key, full, cemLow cems key) = Except.ok (text, ic) := by
  have hlow : cemLow cems key = 0 := by
    rcases h with h | h
    · exact h
    · unfold cemLow
      have hfil : cems.filter (fun c => c.text == key) = [] := by
        rw [List.filter_eq_nil_iff]
        intro c hc
        simp [h c hc]
      simp [hfil]
  rw [hlow]
  unfold processOneAbbv
  simp

/-- Witness for C10 at a concrete mention starting at index 0. -/
theorem c10_witness :
    processOneAbbv cemsC10 ("x".data, 5) ("DMF", "dimethylformamide", cemLow cemsC10 "DMF") =
      Except.ok ("x".data, 5) :=
  c10_zero_low_sentinel_skips cemsC10 "x".data 5 "DMF" "dimethylformamide" (Or.inl (by decide))

/-! ## C6: the hardcoded override for CO -/

/-- C6: after the seeding at the top of normalize_chemical_entities, a
mention whose surface text is CO resolves through the hardcoded override
table: the cems loop issues no external query (its outcome is identical
under any two lookup services), the query log is unchanged, the cache maps
CO to CID 281 with canonical name carbon monoxide, and the replacement
name used by the rewrite loop is carbon monoxide. -/
theorem c6_CO_hardcoded_override (lookup lookup' : String → List Compound)
    (st : PState) (el : List (String × Nat × Nat)) (qs : List String) (cem : Cem)
    (hco : cem.text = "CO") :
    processCem lookup (seedHardcoded st, el, qs) cem =
      processCem lookup' (seedHardcoded st, el, qs) cem ∧
    (processCem lookup (seedHardcoded st, el, qs) cem).2.2 = qs ∧
    dictGet? (processCem lookup (seedHardcoded st, el, qs) cem).1.entity_to_cid "CO" =
      some (some 281, some "carbon monoxide") ∧
    replacementFor (processCem lookup (seedHardcoded st, el, qs) cem).1.entity_to_cid "CO" =
      "carbon monoxide" := by
  have hget : dictGet? (seedHardcoded st).entity_to_cid "CO" =
      some (some 281, some "carbon monoxide") := by
    simp only [seedHardcoded]
    rw [dictGet_dictSet, if_neg (by decide), dictGet_dictSet, if_neg (by decide),
        dictGet_dictSet, if_neg (by decide), dictGet_dictSet, if_neg (by decide),
        dictGet_dictSet, if_neg (by decide), dictGet_dictSet, if_neg (by decide),
        dictGet_dictSet, if_pos rfl]
  have hhas : dictHas (seedHardcoded st).entity_to_cid "CO" = true := by
    rw [dictHas_eq_isSome, hget]
    rfl
  have hm : mentionName "CO" = "CO" := by decide
  have key : ∀ lk : String → List Compound,
      processCem lk (seedHardcoded st, el, qs) cem =
        ({ seedHardcoded st with
            entity_counts := bumpCount (seedHardcoded st).entity_counts "carbon monoxide" },
         el ++ [("CO", cem.start, cem.stop)], qs) := by
    intro lk
    simp only [processCem, hco, hm, hhas, hget, if_true]
  refine ⟨?_, ?_, ?_, ?_⟩
  · rw [key lookup, key lookup']
  · rw [key lookup]
  · rw [key lookup]
    exact hget
  · rw [key lookup]
    unfold replacementFor
    rw [show ({ seedHardcoded st with
            entity_counts := bumpCount (seedHardcoded st).entity_counts "carbon monoxide" } :
          PState).entity_to_cid = (seedHardcoded st).entity_to_cid from rfl, hget]

/-- Witness for C6: the mention CO on the seeded empty state, under an
adversarial lookup and under a benign one. -/
theorem c6_witness :
    processCem lookupJunk (seedHardcoded {}, [], []) cemCO =
      processCem lookupW (seedHardcoded {}, [], []) cemCO ∧
    (processCem lookupJunk (seedHardcoded {}, [], []) cemCO).2.2 = ([] : List String) ∧
    dictGet? (processCem lookupJunk (seedHardcoded {}, [], []) cemCO).1.entity_to_cid "CO" =
      some (some 281, some "carbon monoxide") ∧
    replacementFor (processCem lookupJunk (seedHardcoded {}, [], []) cemCO).1.entity_to_cid "CO" =
      "carbon monoxide" :=
  c6_CO_hardcoded_override lookupJunk lookupW {} [] [] cemCO rfl

/-! ## C7: valence substitution and case normalization before lookup -/

/-- C7: every mention, before any cache test, external lookup or cache
insertion, is put through the valence-pattern substitution (full element
name plus valence when the element-plus-Roman-valence pattern matches,
the raw text otherwise) followed by the compound-formula case rule, and
that transformed name is what the cems loop records in the entity list,
the only name it can send to the external lookup, and the only key it can
insert into the cache; in particular a valence mention such as Fe(III) is
rewritten to full-element-name plus valence before the case rule. -/
theorem c7_valence_then_case_before_lookup (lookup : String → List Compound)
    (st : PState) (el : List (String × Nat × Nat)) (qs : List String) (cem : Cem) :
    mentionName cem.text =
      caseNormalizedName
        (match valenceMatch cem.text with
         | some (elem, valence) => element_dict elem ++ valence
         | none => cem.text) ∧
    (∀ elem valence, valenceMatch cem.text = some (elem, valence) →
        mentionName cem.text = caseNormalizedName (element_dict elem ++ valence)) ∧
    (processCem lookup (st, el, qs) cem).2.1 =
      el ++ [(mentionName cem.text, cem.start, cem.stop)] ∧
    (processCem lookup (st, el, qs) cem).2.2 =
      qs ++ (if dictHas st.entity_to_cid (mentionName cem.text)
             then [] else [mentionName cem.text]) ∧
    ((processCem lookup (st, el, qs) cem).1.entity_to_cid = st.entity_to_cid ∨
      ∃ v, (processCem lookup (st, el, qs) cem).1.entity_to_cid =
        dictSet st.entity_to_cid (mentionName cem.text) v) := by
  refine ⟨?_, ?_, ?_⟩
  · unfold mentionName
    rcases hv : valenceMatch cem.text with _ | ⟨elem, valence⟩
    · rfl
    · rfl
  · intro elem valence hv
    unfold mentionName
    rw [hv]
  · rcases hhas : dictHas st.entity_to_cid (mentionName cem.text) with _ | _
    · rcases hlk : lookup (mentionName cem.text) with _ | ⟨⟨c0cid, c0iupac⟩, cs⟩
      · refine ⟨?_, ?_, ?_⟩ <;>
          simp only [processCem, hhas, hlk, Bool.false_eq_true, if_false]
        exact Or.inr ⟨(none, none), rfl⟩
      · cases c0iupac with
        | none =>
            refine ⟨?_, ?_, ?_⟩ <;>
              simp only [processCem, hhas, hlk, Bool.false_eq_true, if_false]
            exact Or.inr ⟨(c0cid, none), rfl⟩
        | some iupac =>
            refine ⟨?_, ?_, ?_⟩ <;>
              simp only [processCem, hhas, hlk, Bool.false_eq_true, if_false]
            exact Or.inr ⟨(c0cid, some iupac), rfl⟩
    · rcases hget : dictGet? st.entity_to_cid (mentionName cem.text) with _ | ⟨c0, i0⟩
      · rw [dictHas_eq_isSome, hget] at hhas
        simp at hhas
      · cases i0 with
        | none =>
            refine ⟨?_, ?_, ?_⟩ <;>
              simp only [processCem, hhas, hget, if_true] <;> simp
        | some iupac =>
            refine ⟨?_, ?_, ?_⟩ <;>
              simp only [processCem, hhas, hget, if_true] <;> simp

/-- Witness for C7: the mention Fe(III) with span (0,7) on the empty
state and an empty-result lookup; the valence conjunct is instantiated at
the concrete match, and the single query is the transformed,
case-normalized name. -/
theorem c7_witness :
    mentionName cemFe.text = caseNormalizedName (element_dict "Fe" ++ "(III)") ∧
    (processCem (fun _ => []) (({} : PState), [], []) cemFe).2.1 =
      [] ++ [(mentionName cemFe.text, cemFe.start, cemFe.stop)] ∧
    (processCem (fun _ => []) (({} : PState), [], []) cemFe).2.2 =
      [] ++ (if dictHas ({} : PState).entity_to_cid (mentionName cemFe.text)
             then [] else [mentionName cemFe.text]) ∧
    ((processCem (fun _ => []) (({} : PState), [], []) cemFe).1.entity_to_cid =
        ({} : PState).entity_to_cid ∨
      ∃ v, (processCem (fun _ => []) (({} : PState), [], []) cemFe).1.entity_to_cid =
        dictSet ({} : PState).entity_to_cid (mentionName cemFe.text) v) := by
  have h := c7_valence_then_case_before_lookup (fun _ => []) {} [] [] cemFe
  exact ⟨h.2.1 "Fe" "(III)" (by decide), h.2.2.1, h.2.2.2.1, h.2.2.2.2⟩

/-! ## C1: the offset-tracking rewrite loop -/

theorem string_data_length (s : String) : s.data.length = s.length := rfl

theorem pyBound_of_nonneg_le {len : Nat} {i : Int} (h0 : 0 ≤ i) (hle : i ≤ (len : Int)) :
    pyBound len i = i.toNat := by
  unfold pyBound
  rw [if_neg (by omega), min_eq_left (by omega)]

theorem opsChain_cons {name : String} {start stop : Nat} {rest : List (String × Nat × Nat)}
    (h : opsChain ((name, start, stop) :: rest) = true) :
    start ≤ stop ∧ opsChain rest = true ∧ (∀ op2 ∈ rest.head?, stop ≤ op2.2.1) := by
  unfold opsChain at h
  simp only [Bool.and_eq_true, decide_eq_true_eq] at h
  refine ⟨h.1.1, h.2, ?_⟩
  intro op2 hop2
  cases rest with
  | nil => simp at hop2
  | cons e2 r2 =>
      simp only [List.head?_cons, Option.mem_def, Option.some.injEq] at hop2
      subst hop2
      obtain ⟨n2, s2, p2⟩ := e2
      simp only [decide_eq_true_eq] at h
      exact h.1.2

theorem rewriteEntities_length (cid : List (String × Option Int × Option String)) :
    ∀ (ops : List (String × Nat × Nat)) (text : List Char) (ic : Int),
      (rewriteEntities cid text ic ops).2.2.length = ops.length := by
  intro ops
  induction ops with
  | nil => intro text ic; rfl
  | cons e rest ih =>
      obtain ⟨name, start, stop⟩ := e
      intro text ic
      simp only [rewriteEntities, List.length_cons]
      rw [ih]

theorem driftUpTo_cons (cid : List (String × Option Int × Option String))
    (e : String × Nat × Nat) (rest : List (String × Nat × Nat)) (k : Nat) :
    driftUpTo cid (e :: rest) (k + 1) =
      (((replacementFor cid e.1).length : Int) - ((e.2.2 : Int) - (e.2.1 : Int))) +
        driftUpTo cid rest k := by
  simp [driftUpTo, List.take_succ_cons]

theorem driftUpTo_zero (cid : List (String × Option Int × Option String))
    (ops : List (String × Nat × Nat)) : driftUpTo cid ops 0 = 0 := by
  simp [driftUpTo]

theorem rewriteEntities_record_eq (cid : List (String × Option Int × Option String)) :
    ∀ (ops : List (String × Nat × Nat)) (text : List Char) (ic : Int) (k : Nat)
      (hk : k < ops.length) (hk2 : k < (rewriteEntities cid text ic ops).2.2.length),
      (rewriteEntities cid text ic ops).2.2.get ⟨k, hk2⟩ =
        (replacementFor cid (ops.get ⟨k, hk⟩).1,
         ((ops.get ⟨k, hk⟩).2.1 : Int) + ic + driftUpTo cid ops k,
         ((ops.get ⟨k, hk⟩).2.1 : Int) + ic + driftUpTo cid ops k +
           ((replacementFor cid (ops.get ⟨k, hk⟩).1).length : Int),
         (ops.get ⟨k, hk⟩).1) := by
  intro ops
  induction ops with
  | nil => intro text ic k hk _; exact absurd hk (by simp)
  | cons e rest ih =>
      obtain ⟨name, start, stop⟩ := e
      intro text ic k hk hk2
      cases k with
      | zero =>
          simp only [rewriteEntities, List.get] at hk2 ⊢
          rw [driftUpTo_zero]
          refine Prod.ext rfl (Prod.ext ?_ (Prod.ext ?_ rfl))
          · simp only []
            omega
          · simp only []
            omega
      | succ k =>
          simp only [rewriteEntities, List.get] at hk2 ⊢
          have hk' : k < rest.length := by simpa using hk
          have hk2' : k <
              (rewriteEntities cid
                (pyTake text ((start : Int) + ic) ++ (replacementFor cid name).data ++
                  pyDrop text ((stop : Int) + ic))
                (ic + (((replacementFor cid name).length : Int) - ((stop : Int) - (start : Int))))
                rest).2.2.length := by
            simpa using hk2
          rw [ih _ _ k hk' hk2', driftUpTo_cons]
          refine Prod.ext rfl (Prod.ext ?_ (Prod.ext ?_ rfl))
          · simp only []
            omega
          · simp only []
            omega

theorem rewriteEntities_take_eq (cid : List (String × Option Int × Option String)) :
    ∀ (ops : List (String × Nat × Nat)) (text : List Char) (ic : Int) (N p : Nat),
      opsChain ops = true →
      (∀ op ∈ ops, op.2.2 ≤ N) →
      (text.length : Int) = (N : Int) + ic →
      (∀ op0 ∈ ops.head?, (p : Int) ≤ (op0.2.1 : Int) + ic) →
      p ≤ text.length →
      (rewriteEntities cid text ic ops).1.take p = text.take p := by
  intro ops
  induction ops with
  | nil => intro text ic N p _ _ _ _ _; rfl
  | cons e rest ih =>
      obtain ⟨name, start, stop⟩ := e
      intro text ic N p hchain hbound hlen hhead hp
      obtain ⟨hss, hchainrest, hnext⟩ := opsChain_cons hchain
      have hpa : (p : Int) ≤ (start : Int) + ic := hhead (name, start, stop) (by simp)
      have hstopN : stop ≤ N := hbound (name, start, stop) (by simp)
      set rn := replacementFor cid name with hrn
      have hb_le : (stop : Int) + ic ≤ (text.length : Int) := by omega
      have ha0 : 0 ≤ (start : Int) + ic := by omega
      have hb0 : 0 ≤ (stop : Int) + ic := by omega
      have hpt : pyTake text ((start : Int) + ic) = text.take ((start : Int) + ic).toNat := by
        unfold pyTake
        rw [pyBound_of_nonneg_le ha0 (by omega)]
      have hpd : pyDrop text ((stop : Int) + ic) = text.drop ((stop : Int) + ic).toNat := by
        unfold pyDrop
        rw [pyBound_of_nonneg_le hb0 hb_le]
      simp only [rewriteEntities]
      rw [hpt, hpd]
      set aN := ((start : Int) + ic).toNat with haN
      set bN := ((stop : Int) + ic).toNat with hbN
      have haNb : aN ≤ bN := by omega
      have hbNlen : bN ≤ text.length := by omega
      have hpaN : p ≤ aN := by omega
      have hlenTake : (text.take aN).length = aN := by
        rw [List.length_take]
        omega
      have hlen2 : ((text.take aN ++ rn.data ++ text.drop bN).length : Int) =
          (N : Int) + (ic + ((rn.length : Int) - ((stop : Int) - (start : Int)))) := by
        simp only [List.length_append, List.length_take, List.length_drop, string_data_length]
        push_cast
        omega
      rw [ih (text.take aN ++ rn.data ++ text.drop bN)
            (ic + ((rn.length : Int) - ((stop : Int) - (start : Int)))) N p
            hchainrest
            (fun op hop => hbound op (List.mem_cons_of_mem _ hop))
            hlen2
            (by
              intro op0 h0
              have h1 := hnext op0 h0
              have h2 : (rn.length : Int) ≥ 0 := by positivity
              omega)
            (by
              simp only [List.length_append, List.length_take, List.length_drop]
              omega)]
      rw [List.take_append_of_le_length
            (by simp only [List.length_append, hlenTake]; omega),
          List.take_append_of_le_length (by rw [hlenTake]; exact hpaN),
          List.take_take, min_eq_left hpaN]

theorem rewriteEntities_records_delimit (cid : List (String × Option Int × Option String)) :
    ∀ (ops : List (String × Nat × Nat)) (text : List Char) (ic : Int) (N : Nat),
      opsChain ops = true →
      (∀ op ∈ ops, op.2.2 ≤ N) →
      (text.length : Int) = (N : Int) + ic →
      (∀ op0 ∈ ops.head?, 0 ≤ (op0.2.1 : Int) + ic) →
      ∀ r ∈ (rewriteEntities cid text ic ops).2.2,
        0 ≤ r.2.1 ∧ r.2.2.1 = r.2.1 + (r.1.length : Int) ∧
        ((rewriteEntities cid text ic ops).1.drop r.2.1.toNat).take r.1.length = r.1.data := by
  intro ops
  induction ops with
  | nil =>
      intro text ic N _ _ _ _ r hr
      simp [rewriteEntities] at hr
  | cons e rest ih =>
      obtain ⟨name, start, stop⟩ := e
      intro text ic N hchain hbound hlen hhead r hr
      obtain ⟨hss, hchainrest, hnext⟩ := opsChain_cons hchain
      have ha0 : 0 ≤ (start : Int) + ic := hhead (name, start, stop) (by simp)
      have hstopN : stop ≤ N := hbound (name, start, stop) (by simp)
      set rn := replacementFor cid name with hrn
      have hb_le : (stop : Int) + ic ≤ (text.length : Int) := by omega
      have hb0 : 0 ≤ (stop : Int) + ic := by omega
      have hpt : pyTake text ((start : Int) + ic) = text.take ((start : Int) + ic).toNat := by
        unfold pyTake
        rw [pyBound_of_nonneg_le ha0 (by omega)]
      have hpd : pyDrop text ((stop : Int) + ic) = text.drop ((stop : Int) + ic).toNat := by
        unfold pyDrop
        rw [pyBound_of_nonneg_le hb0 hb_le]
      simp only [rewriteEntities, List.mem_cons] at hr ⊢
      rw [hpt, hpd] at hr ⊢
      rw [← hrn] at hr ⊢
      set aN := ((start : Int) + ic).toNat with haN
      set bN := ((stop : Int) + ic).toNat with hbN
      have haNb : aN ≤ bN := by omega
      have hbNlen : bN ≤ text.length := by omega
      have hlenTake : (text.take aN).length = aN := by
        rw [List.length_take]
        omega
      set ic' := ic + ((rn.length : Int) - ((stop : Int) - (start : Int))) with hic'
      set text' := text.take aN ++ rn.data ++ text.drop bN with htext'
      have hlen2 : ((text' : List Char).length : Int) = (N : Int) + ic' := by
        simp only [htext', List.length_append, List.length_take, List.length_drop,
          string_data_length]
        push_cast
        omega
      have hboundrest : ∀ op ∈ rest, op.2.2 ≤ N :=
        fun op hop => hbound op (List.mem_cons_of_mem _ hop)
      have hheadrest : ∀ op0 ∈ rest.head?, 0 ≤ (op0.2.1 : Int) + ic' := by
        intro op0 h0
        have h1 := hnext op0 h0
        have h2 : (rn.length : Int) ≥ 0 := by positivity
        omega
      rcases hr with hr | hr
      · subst hr
        refine ⟨by simp only []; omega, by simp only []; push_cast; omega, ?_⟩
        have hidx : ((start : Int) + ic' - ((rn.length : Int) - ((stop : Int) - (start : Int)))) =
            (start : Int) + ic := by omega
        rw [hidx]
        have htoN : ((start : Int) + ic).toNat = aN := rfl
        rw [htoN]
        have hpref := rewriteEntities_take_eq cid rest text' ic' N (aN + rn.length)
          hchainrest hboundrest hlen2
          (by
            intro op0 h0
            have h1 := hnext op0 h0
            push_cast
            omega)
          (by
            simp only [htext', List.length_append, List.length_take, List.length_drop,
              string_data_length]
            omega)
        have hslice : ∀ l1 l2 : List Char, l1.take (aN + rn.length) = l2.take (aN + rn.length) →
            (l1.drop aN).take rn.length = (l2.drop aN).take rn.length := by
          intro l1 l2 hEq
          rw [List.take_drop, List.take_drop, hEq]
        rw [hslice _ text' hpref]
        have hdl : String.length rn = rn.data.length := rfl
        rw [htext', List.append_assoc]
        rw [List.drop_left' hlenTake]
        rw [hdl]
        exact List.take_left' rfl
      · exact ih text' ic' N hchainrest hboundrest hlen2 hheadrest r hr

/-- C1: the offset-tracking rewrite loop of normalize_chemical_entities,
run over an operation list sorted by ascending start with non-overlapping
in-bounds spans, records one tuple per operation; the k-th tuple carries
the replacement name, the original start shifted by the drift accumulated
by the first k operations (the sum of the length deltas, each updated by
replacement length minus span length), an end equal to that shifted start
plus the replacement length, and the original surface name; and in the
final rewritten text the recorded span delimits exactly the replacement
name. -/
theorem c1_offset_rewriter_correct (cid : List (String × Option Int × Option String))
    (text : List Char) (ops : List (String × Nat × Nat))
    (hchain : opsChain ops = true)
    (hbound : ∀ op ∈ ops, op.2.2 ≤ text.length) :
    (rewriteEntities cid text 0 ops).2.2.length = ops.length ∧
    (∀ (k : Nat) (hk : k < ops.length) (hk2 : k < (rewriteEntities cid text 0 ops).2.2.length),
      (rewriteEntities cid text 0 ops).2.2.get ⟨k, hk2⟩ =
        (replacementFor cid (ops.get ⟨k, hk⟩).1,
         ((ops.get ⟨k, hk⟩).2.1 : Int) + driftUpTo cid ops k,
         ((ops.get ⟨k, hk⟩).2.1 : Int) + driftUpTo cid ops k +
           ((replacementFor cid (ops.get ⟨k, hk⟩).1).length : Int),
         (ops.get ⟨k, hk⟩).1)) ∧
    (∀ r ∈ (rewriteEntities cid text 0 ops).2.2,
      0 ≤ r.2.1 ∧ r.2.2.1 = r.2.1 + (r.1.length : Int) ∧
      ((rewriteEntities cid text 0 ops).1.drop r.2.1.toNat).take r.1.length = r.1.data) := by
  refine ⟨rewriteEntities_length cid ops text 0, ?_, ?_⟩
  · intro k hk hk2
    have h := rewriteEntities_record_eq cid ops text 0 k hk hk2
    simpa using h
  · intro r hr
    exact rewriteEntities_records_delimit cid ops text 0 text.length hchain hbound
      (by omega)
      (by intro op0 _; positivity)
      r hr

/-- Witness for C1: one replacement of XY by xylene inside a small text;
the recorded span (3,9) delimits xylene in the rewritten text. -/
theorem c1_witness :
    0 ≤ (("xylene", (3 : Int), (9 : Int), "XY") : EntityRecord).2.1 ∧
    (("xylene", (3 : Int), (9 : Int), "XY") : EntityRecord).2.2.1 =
      (("xylene", (3 : Int), (9 : Int), "XY") : EntityRecord).2.1 +
        ((("xylene", (3 : Int), (9 : Int), "XY") : EntityRecord).1.length : Int) ∧
    ((rewriteEntities cidW textW 0 opsW).1.drop
        (("xylene", (3 : Int), (9 : Int), "XY") : EntityRecord).2.1.toNat).take
        (("xylene", (3 : Int), (9 : Int), "XY") : EntityRecord).1.length =
      (("xylene", (3 : Int), (9 : Int), "XY") : EntityRecord).1.data :=
  (c1_offset_rewriter_correct cidW textW opsW (by decide) (by decide)).2.2
    ("xylene", 3, 9, "XY") (by decide)

/-! ## C5: synonym-set monotonicity -/

theorem processCem_syn_mono (lookup : String → List Compound)
    (acc : PState × List (String × Nat × Nat) × List String) (cem : Cem) (k s : String)
    (h : s ∈ synList acc.1 k) :
    s ∈ synList (processCem lookup acc cem).1 k := by
  obtain ⟨st, el, qs⟩ := acc
  simp only [synList] at h
  rcases hhas : dictHas st.entity_to_cid (mentionName cem.text) with _ | _
  · rcases hlk : lookup (mentionName cem.text) with _ | ⟨⟨c0cid, c0iupac⟩, cs⟩
    · simp only [processCem, hhas, hlk, Bool.false_eq_true, if_false]
      exact h
    · cases c0iupac with
      | none =>
          simp only [processCem, hhas, hlk, Bool.false_eq_true, if_false]
          exact h
      | some iupac =>
          simp only [processCem, hhas, hlk, Bool.false_eq_true, if_false]
          rcases hsyn : dictHas st.entity_to_synonyms iupac with _ | _
          · simp only [hsyn, Bool.false_eq_true, if_false, synList]
            rw [dictGet_dictSet]
            by_cases hk : k = iupac
            · subst hk
              rw [dictHas_eq_isSome] at hsyn
              rcases hg : dictGet? st.entity_to_synonyms k with _ | w
              · rw [hg] at h
                simp at h
              · rw [hg] at hsyn
                simp at hsyn
            · rw [if_neg hk]
              exact h
          · simp only [hsyn, if_true, synList]
            rw [dictGet_dictSet]
            by_cases hk : k = iupac
            · subst hk
              rw [if_pos rfl]
              simp only [Option.getD_some]
              exact List.mem_append_left _ h
            · rw [if_neg hk]
              exact h
  · rcases hget : dictGet? st.entity_to_cid (mentionName cem.text) with _ | ⟨c0, i0⟩
    · rw [dictHas_eq_isSome, hget] at hhas
      simp at hhas
    · cases i0 with
      | none =>
          simp only [processCem, hhas, hget, if_true]
          exact h
      | some iupac =>
          simp only [processCem, hhas, hget, if_true]
          exact h

theorem foldCems_syn_mono (lookup : String → List Compound) (cems : List Cem) :
    ∀ (acc : PState × List (String × Nat × Nat) × List String) (k s : String),
      s ∈ synList acc.1 k →
      s ∈ synList ((cems.foldl (processCem lookup) acc)).1 k := by
  induction cems with
  | nil => intro acc k s h; exact h
  | cons c cems ih =>
      intro acc k s h
      exact ih _ k s (processCem_syn_mono lookup acc c k s h)

theorem normalizeOneText_syn_mono (lookup : String → List Compound) (st : PState) (i : Nat)
    (input : List Char × List Cem) (k s : String)
    (h : s ∈ synList st k) :
    s ∈ synList (normalizeOneText lookup st i input) k :=
  foldCems_syn_mono lookup input.2 (st, [], []) k s h

/-- C5 (amended): within a single run of entity normalization the synonym
mapping grows monotonically after the hardcoded seeding: every surface
name present in the synonym list of a canonical name at the start of the
per-text loop is still present after processing any batch of texts, under
any lookup service. -/
theorem c5_synonyms_monotone_within_run (lookup : String → List Compound)
    (st : PState) (start_idx : Nat) (texts : List (List Char × List Cem)) (k s : String)
    (h : s ∈ synList st k) :
    s ∈ synList (normalizeLoop lookup st start_idx texts) k := by
  unfold normalizeLoop
  generalize texts.enum = l
  induction l generalizing st with
  | nil => exact h
  | cons p l ih =>
      simp only [List.foldl_cons]
      exact ih _ (normalizeOneText_syn_mono lookup st (start_idx + p.1) p.2 k s h)

/-- Witness for C5: the seeded synonym CO of carbon monoxide survives a
run over the one-text corpus. -/
theorem c5_witness :
    "CO" ∈ synList (normalizeLoop lookupW (seedHardcoded {}) 0 textsW) "carbon monoxide" :=
  c5_synonyms_monotone_within_run lookupW (seedHardcoded {}) 0 textsW
    "carbon monoxide" "CO" (by decide)

/-- C5 counterexample: across repeated calls the mapping is not monotone.
A first call over the one-text corpus registers the surface oc under
carbon monoxide (synonyms become CO, oc); a second call, even over an
empty corpus, re-seeds the hardcoded entry and the list shrinks back to
CO, removing oc. -/
theorem c5_counterexample :
    dictGet? (normalize_chemical_entities lookupW {} textsW).entity_to_synonyms
        "carbon monoxide" = some ["CO", "oc"] ∧
    dictGet? (normalize_chemical_entities lookupW
        (normalize_chemical_entities lookupW {} textsW) []).entity_to_synonyms
        "carbon monoxide" = some ["CO"] := by
  exact ⟨rfl, rfl⟩

/-! ## C4: entity count bookkeeping -/

theorem bumpKeyFor_eq_of_cid (st1 st2 : PState)
    (h : st1.entity_to_cid = st2.entity_to_cid) :
    bumpKeyFor st1 = bumpKeyFor st2 := by
  funext cem
  unfold bumpKeyFor
  rw [h]

theorem processCem_cached_counts (lookup : String → List Compound)
    (acc : PState × List (String × Nat × Nat) × List String) (cem : Cem)
    (hc : dictHas acc.1.entity_to_cid (mentionName cem.text) = true) :
    (processCem lookup acc cem).1.entity_to_cid = acc.1.entity_to_cid ∧
    ∀ k, countValue (processCem lookup acc cem).1 k =
      countValue acc.1 k + (if bumpKeyFor acc.1 cem = k then 1 else 0) := by
  obtain ⟨st, el, qs⟩ := acc
  simp only [] at hc ⊢
  rcases hget : dictGet? st.entity_to_cid (mentionName cem.text) with _ | ⟨c0, i0⟩
  · rw [dictHas_eq_isSome, hget] at hc
    simp at hc
  · cases i0 with
    | none =>
        simp only [processCem, hc, hget, if_true]
        refine ⟨by trivial, ?_⟩
        intro k
        have hbk : bumpKeyFor st cem = mentionName cem.text := by
          unfold bumpKeyFor
          rw [hget]
        rw [hbk]
        simp only [countValue, bumpCount]
        rw [dictGet_dictSet]
        by_cases hk : k = mentionName cem.text
        · subst hk
          rw [if_pos rfl, if_pos rfl]
          simp
        · rw [if_neg hk, if_neg (fun hx => hk hx.symm)]
          simp
    | some iupac =>
        simp only [processCem, hc, hget, if_true]
        refine ⟨by trivial, ?_⟩
        intro k
        have hbk : bumpKeyFor st cem = iupac := by
          unfold bumpKeyFor
          rw [hget]
        rw [hbk]
        simp only [countValue, bumpCount]
        rw [dictGet_dictSet]
        by_cases hk : k = iupac
        · subst hk
          rw [if_pos rfl, if_pos rfl]
          simp
        · rw [if_neg hk, if_neg (fun hx => hk hx.symm)]
          simp

theorem foldCems_cached_counts (lookup : String → List Compound) (cems : List Cem) :
    ∀ (acc : PState × List (String × Nat × Nat) × List String),
      (∀ cem ∈ cems, dictHas acc.1.entity_to_cid (mentionName cem.text) = true) →
      ((cems.foldl (processCem lookup) acc).1.entity_to_cid = acc.1.entity_to_cid ∧
       ∀ k, countValue (cems.foldl (processCem lookup) acc).1 k =
         countValue acc.1 k + (cems.filter (fun c => bumpKeyFor acc.1 c = k)).length) := by
  induction cems with
  | nil =>
      intro acc hc
      exact ⟨rfl, fun k => by simp⟩
  | cons c cems ih =>
      intro acc hc
      have hc0 := hc c (by simp)
      obtain ⟨hcid0, hcnt0⟩ := processCem_cached_counts lookup acc c hc0
      have hc1 : ∀ cem ∈ cems, dictHas (processCem lookup acc c).1.entity_to_cid
          (mentionName cem.text) = true := by
        intro cem hcem
        rw [hcid0]
        exact hc cem (List.mem_cons_of_mem _ hcem)
      obtain ⟨hcid1, hcnt1⟩ := ih (processCem lookup acc c) hc1
      have hbump : bumpKeyFor (processCem lookup acc c).1 = bumpKeyFor acc.1 :=
        bumpKeyFor_eq_of_cid _ _ hcid0
      constructor
      · simp only [List.foldl_cons]
        rw [hcid1, hcid0]
      · intro k
        simp only [List.foldl_cons]
        rw [hcnt1 k, hcnt0 k, hbump, List.filter_cons]
        by_cases hik : bumpKeyFor acc.1 c = k
        · rw [if_pos (by simp [hik])]
          simp [hik]
          omega
        · rw [if_neg (by simp [hik])]
          simp [hik]

/-- C4 (amended): over any batch of mentions whose transformed names are
all already cached, each mention increments the count of its canonical (or
surface) key by exactly one, so every count grows by exactly the number of
mentions resolved to it; the cache itself is unchanged.  (For mentions not
yet cached the code sets the count to 1 instead of incrementing, and the
seeding at the top of each run sets counts to 1 for every cached entry
even with zero mentions, which is what refutes the original claim.) -/
theorem c4_cached_counts_additive (lookup : String → List Compound)
    (acc : PState × List (String × Nat × Nat) × List String) (cems : List Cem) (k : String)
    (hcached : ∀ cem ∈ cems, dictHas acc.1.entity_to_cid (mentionName cem.text) = true) :
    countValue (cems.foldl (processCem lookup) acc).1 k =
      countValue acc.1 k + (cems.filter (fun c => bumpKeyFor acc.1 c = k)).length :=
  (foldCems_cached_counts lookup cems acc hcached).2 k

/-- Witness for C4: one cached CO mention on the seeded empty state bumps
the carbon monoxide count by exactly one. -/
theorem c4_witness :
    countValue ([cemCO].foldl (processCem lookupJunk) (seedHardcoded {}, [], [])).1
        "carbon monoxide" =
      countValue (seedHardcoded {}) "carbon monoxide" +
        ([cemCO].filter (fun c => bumpKeyFor (seedHardcoded {}) c = "carbon monoxide")).length :=
  c4_cached_counts_additive lookupJunk (seedHardcoded {}, [], []) [cemCO]
    "carbon monoxide" (by decide)

/-- C4 counterexample: a run of entity normalization over an empty corpus
processes zero mentions (entities_per_text stays empty) yet creates the
count entry carbon monoxide with value 1, so a count exists for a name
with zero processed mentions and the count does not equal the number of
mentions resolved to it. -/
theorem c4_counterexample :
    (normalize_chemical_entities (fun _ => []) {} []).entities_per_text = [] ∧
    dictGet? (normalize_chemical_entities (fun _ => []) {} []).entity_counts
        "carbon monoxide" = some 1 := by
  exact ⟨rfl, rfl⟩

/-! ## C8: abbreviation removal -/

theorem isPrefixOf_length_le {A rest : List Char} (h : A.isPrefixOf rest = true) :
    A.length ≤ rest.length :=
  (List.isPrefixOf_iff_prefix.mp h).length_le

theorem subAbbvF_length (A full : List Char) :
    ∀ (fuel : Nat) (s : List Char), s.length ≤ fuel →
      (subAbbvF A full fuel s).length + countSubF A fuel s * A.length =
        s.length + countSubF A fuel s * full.length := by
  intro fuel
  induction fuel with
  | zero =>
      intro s hs
      simp [subAbbvF, countSubF]
  | succ fuel ih =>
      intro s hs
      cases s with
      | nil => simp [subAbbvF, countSubF]
      | cons c rest =>
          simp only [subAbbvF, countSubF]
          by_cases hw : (c.isWhitespace && A.isPrefixOf rest) = true
          · rw [hw]
            simp only [if_true]
            have hpre : A.length ≤ rest.length :=
              isPrefixOf_length_le (Bool.and_elim_right hw)
            cases hd : rest.drop A.length with
            | nil =>
                have hlen0 := congrArg List.length hd
                simp only [List.length_drop, List.length_nil] at hlen0
                simp only [List.length_cons, List.length_nil]
                have hr : rest.length = A.length := by omega
                simp [hr]
                ring
            | cons d rest2 =>
                have hlen0 := congrArg List.length hd
                simp only [List.length_drop, List.length_cons] at hlen0
                by_cases hdel : abbvDelim d = true
                · simp only [hdel, if_true]
                  have ihr := ih rest2 (by simp at hs; omega)
                  simp only [List.length_append, List.length_cons]
                  have hexp : ∀ (L : Nat), (1 + countSubF A fuel rest2) * L =
                      L + countSubF A fuel rest2 * L := by
                    intro L
                    ring
                  rw [hexp, hexp]
                  have hr : rest.length = A.length + rest2.length + 1 := by omega
                  rw [hr]
                  linarith [ihr]
                · simp only [hdel, Bool.false_eq_true, if_false]
                  have ihr := ih rest (by simp at hs; omega)
                  simp only [List.length_cons]
                  linarith [ihr]
          · rw [Bool.of_not_eq_true hw]
            simp only [Bool.false_eq_true, if_false]
            have ihr := ih rest (by simp at hs; omega)
            simp only [List.length_cons]
            linarith [ihr]

theorem subAbbv_length (A full s : List Char) :
    (subAbbv A full s).length + countSub A s * A.length =
      s.length + countSub A s * full.length :=
  subAbbvF_length A full s.length s (Nat.le_refl _)

theorem escapePlus_foldl (l acc : List Char) (h : ∀ c ∈ l, c ≠ '+') :
    l.foldl (fun acc c => acc ++ (if c == '+' then ['\\', c] else [c])) acc = acc ++ l := by
  induction l generalizing acc with
  | nil => simp
  | cons c l ih =>
      have hc : (c == '+') = false := by
        simp [h c (by simp)]
      simp only [List.foldl_cons, hc, Bool.false_eq_true, if_false]
      rw [ih _ (fun x hx => h x (List.mem_cons_of_mem _ hx))]
      simp

theorem escapePlus_eq_self (A : String) (h : ∀ c ∈ A.data, c ≠ '+') :
    escapePlus A = A := by
  unfold escapePlus
  rw [escapePlus_foldl A.data [] h]
  rfl

theorem unescapePlus_eq_self (l : List Char) (h : ∀ c ∈ l, c ≠ '+') :
    unescapePlus l = l := by
  induction l with
  | nil => rfl
  | cons c rest ih =>
      cases rest with
      | nil => rfl
      | cons d rest2 =>
          have hd : ¬(c = '\\' ∧ d = '+') := by
            rintro ⟨-, hd⟩
            exact h d (by simp) hd
          simp only [unescapePlus, hd, if_false]
          rw [ih (fun x hx => h x (List.mem_cons_of_mem _ hx))]

/-- C8 counterexample: on the text with the parenthesised NMR definition
followed by two adjacent occurrences, remove_abbreviations deletes the
parenthetical but the scan consumes the single space between the adjacent
occurrences as the trailing delimiter of the first replacement, leaving
the second occurrence unreplaced: the final length is 62, not the
original 45 plus (3-1) times the delta 23 minus the deleted 6 (which would
be 85). -/
theorem c8_counterexample :
    remove_abbreviations cemsC8 abbvsC8 textC8 = Except.ok resC8 ∧
    (resC8.length : Int) ≠
      (textC8.length : Int) +
        ((3 : Int) - 1) * (("nuclear magnetic resonance".length : Int) - ("NMR".length : Int)) -
        (("NMR".length : Int) + 3) := by
  constructor
  · rfl
  · decide

/-- C8 (amended): for a text in which the defining occurrence of an
abbreviation appears as a whitespace-preceded parenthetical (the
recognized entity span of the abbreviation), abbreviation removal deletes
the parenthetical including its enclosing space and parentheses and then
substitutes the full form by the left-to-right non-overlapping scan of
the substitution pattern; the final length equals the original length
plus (number of occurrences actually replaced by the scan) times the
length delta, minus the deleted parenthetical length.  An occurrence
whose only preceding whitespace was consumed as the trailing delimiter of
the previous replacement is not replaced, which is what refutes the
original every-later-occurrence claim.  The hypothesis restricts the
abbreviation to names free of regex special characters, the domain on
which the compiled pattern of the source matches the abbreviation
literally; outside it the source wildcard-matches or raises re.error. -/
theorem c8_abbreviation_removal (p r : List Char) (A full : String)
    (longTokens : List String) (typ : String)
    (hfull : String.intercalate " " longTokens = full)
    (hlit : ∀ c ∈ A.data, reSpecialChars.contains c = false) :
    remove_abbreviations
        [⟨A, p.length + 2, p.length + 2 + A.length⟩]
        [⟨[A], longTokens, some typ⟩]
        (p ++ (' ' :: '(' :: (A.data ++ ')' :: r))) =
      Except.ok (subAbbv A.data full.data (p ++ r)) ∧
    ((subAbbv A.data full.data (p ++ r)).length : Int) =
      ((p ++ (' ' :: '(' :: (A.data ++ ')' :: r))).length : Int) +
        (countSub A.data (p ++ r) : Int) * ((full.length : Int) - (A.length : Int)) -
        ((A.length : Int) + 3) := by
  have hplus : ∀ c ∈ A.data, c ≠ '+' := by
    intro c hc he
    have h0 := hlit c hc
    rw [he] at h0
    exact absurd h0 (by decide)
  constructor
  · set text := p ++ (' ' :: '(' :: (A.data ++ ')' :: r)) with htext
    set cems : List Cem := [⟨A, p.length + 2, p.length + 2 + A.length⟩] with hcems
    have hlen_text : text.length = p.length + A.length + 3 + r.length := by
      rw [htext]
      simp [List.length_append]
      omega
    have hesc : escapePlus A = A := escapePlus_eq_self A hplus
    have hfilter : cems.filter (fun c => c.text == A) = cems := by
      rw [hcems]
      simp [List.filter]
    have hlow : cemLow cems A = p.length + 2 := by
      unfold cemLow
      rw [hfilter, hcems]
      simp [npArgmin, npArgmin.go]
    have hbuild : buildAbbvDict cems [⟨[A], longTokens, some typ⟩] =
        [(A, (full, p.length + 2))] := by
      have h0 : buildAbbvDict cems [⟨[A], longTokens, some typ⟩] =
          dictSet [] (escapePlus A)
            (String.intercalate " " longTokens, cemLow cems (escapePlus A)) := rfl
      rw [h0, hesc, hfull, hlow]
      rfl
    have hch1 : pyCharAt text (((p.length + 2 : Nat) : Int) + 0 - 1) = some '(' := by
      unfold pyCharAt
      rw [if_pos (by push_cast; omega)]
      have hidx : ((((p.length + 2 : Nat) : Int)) + 0 - 1).toNat = p.length + 1 := by
        push_cast
        omega
      rw [hidx, htext, List.get?_append_right (by omega)]
      have h1 : p.length + 1 - p.length = 1 := by omega
      rw [h1]
      rfl
    have hch2 : pyCharAt text (((p.length + 2 + A.length : Nat) : Int) + 0) = some ')' := by
      unfold pyCharAt
      rw [if_pos (by push_cast; omega)]
      have hidx : ((((p.length + 2 + A.length : Nat) : Int)) + 0).toNat =
          p.length + (2 + A.length) := by
        push_cast
        omega
      rw [hidx, htext, List.get?_append_right (by omega)]
      have h1 : p.length + (2 + A.length) - p.length = A.length + 2 := by omega
      rw [h1]
      have h2 : ((' ' :: '(' :: (A.data ++ ')' :: r)).get? (A.length + 2)) =
          ((A.data ++ ')' :: r).get? A.length) := by
        rfl
      rw [h2, List.get?_append_right (by rw [string_data_length])]
      have h3 : A.length - A.data.length = 0 := by
        rw [string_data_length]
        omega
      rw [h3]
      rfl
    have htake : pyTake text (((p.length + 2 : Nat) : Int) - 2 + 0) = p := by
      unfold pyTake
      have hidx : pyBound text.length (((p.length + 2 : Nat) : Int) - 2 + 0) = p.length := by
        unfold pyBound
        rw [if_neg (by push_cast; omega)]
        have h1 : ((((p.length + 2 : Nat) : Int)) - 2 + 0).toNat = p.length := by
          push_cast
          omega
        rw [h1, min_eq_left (by omega)]
      rw [hidx, htext, List.take_left' rfl]
    have hdrop : pyDrop text (((p.length + 2 + A.length : Nat) : Int) + 1 + 0) = r := by
      unfold pyDrop
      have hidx : pyBound text.length (((p.length + 2 + A.length : Nat) : Int) + 1 + 0) =
          p.length + 3 + A.length := by
        unfold pyBound
        rw [if_neg (by push_cast; omega)]
        have h1 : ((((p.length + 2 + A.length : Nat) : Int)) + 1 + 0).toNat =
            p.length + 3 + A.length := by
          push_cast
          omega
        rw [h1, min_eq_left (by omega)]
      have htext2 : text = (p ++ ' ' :: '(' :: (A.data ++ [')'])) ++ r := by
        rw [htext]
        simp
      rw [hidx, htext2, List.drop_left' (by simp [List.length_append, string_data_length]; omega)]
    have hunesc : unescapePlus A.data = A.data := unescapePlus_eq_self A.data hplus
    have hall : A.data.all (fun c => c == '+' || !(reSpecialChars.contains c)) = true := by
      rw [List.all_eq_true]
      intro c hc
      rw [hlit c hc]
      simp
    have hsub : ∀ t : List Char, pyReSubAbbv A full.data t =
        Except.ok (subAbbv A.data full.data t) := by
      intro t
      unfold pyReSubAbbv
      rw [hunesc, if_pos hall]
    have hstep : ∀ (s e : Nat) (ic : Int),
        abbvRewriteStep A full.data text ic s e (some '(') (some ')') =
          (match pyReSubAbbv A full.data
              (pyTake text ((s : Int) - 2 + ic) ++ pyDrop text ((e : Int) + 1 + ic)) with
           | .ok t2 => Except.ok (t2, ic + ((s : Int) - (e : Int) - 3))
           | .error err => Except.error err) := by
      intro s e ic
      rfl
    have hgetD1 : ([p.length + 2].getD
        (if ([p.length + 2] : List Nat).length = 1 then 0 else npArgmin [p.length + 2]) 0) =
        p.length + 2 := by simp
    have hgetD2 : ([p.length + 2 + A.length].getD
        (if ([p.length + 2] : List Nat).length = 1 then 0 else npArgmin [p.length + 2]) 0) =
        p.length + 2 + A.length := by simp
    have hproc : processOneAbbv cems (text, 0) (A, (full, p.length + 2)) =
        Except.ok (subAbbv A.data full.data (p ++ r),
          0 + (((p.length + 2 : Nat) : Int) - ((p.length + 2 + A.length : Nat) : Int) - 3)) := by
      simp only [processOneAbbv]
      rw [if_pos (by omega : (p.length + 2 : Nat) ≠ 0)]
      rw [hfilter, hcems]
      simp only [List.map_cons, List.map_nil]
      rw [if_neg (by simp)]
      rw [hgetD1, hgetD2, hch1, hch2, hstep, htake, hdrop, hsub]
    show remove_abbreviations cems [⟨[A], longTokens, some typ⟩] text = _
    unfold remove_abbreviations
    rw [if_pos (by simp)]
    rw [hbuild]
    simp only [stableSort, stableInsert]
    have hfold : [(A, (full, p.length + 2))].foldlM (processOneAbbv cems) (text, 0) =
        Except.ok (subAbbv A.data full.data (p ++ r),
          0 + (((p.length + 2 : Nat) : Int) - ((p.length + 2 + A.length : Nat) : Int) - 3)) := by
      have h0 : [(A, (full, p.length + 2))].foldlM (processOneAbbv cems) (text, 0) =
          (processOneAbbv cems (text, 0) (A, (full, p.length + 2)) >>= fun b => pure b) := rfl
      rw [h0, hproc]
      rfl
    rw [hfold]
  · have h := subAbbv_length A.data full.data (p ++ r)
    have hInt : ((subAbbv A.data full.data (p ++ r)).length : Int) +
        (countSub A.data (p ++ r) : Int) * ((A.length : Nat) : Int) =
        (((p ++ r)).length : Int) + (countSub A.data (p ++ r) : Int) * ((full.length : Nat) : Int) := by
      have h2 : (A.data.length : Int) = ((A.length : Nat) : Int) := rfl
      have h3 : (full.data.length : Int) = ((full.length : Nat) : Int) := rfl
      exact_mod_cast h
    have hlens : ((p ++ (' ' :: '(' :: (A.data ++ ')' :: r))).length : Int) =
        (p.length : Int) + (A.length : Int) + 3 + (r.length : Int) := by
      simp [List.length_append, string_data_length]
      push_cast
      ring
    have hpr : (((p ++ r)).length : Int) = (p.length : Int) + (r.length : Int) := by
      push_cast [List.length_append]
      ring
    rw [hlens]
    rw [hpr] at hInt
    have hx : (countSub A.data (p ++ r) : Int) * ((full.length : Int) - (A.length : Int)) =
        (countSub A.data (p ++ r) : Int) * (full.length : Int) -
          (countSub A.data (p ++ r) : Int) * (A.length : Int) := by
      ring
    rw [hx]
    linarith [hInt]

/-- Witness for C8: the NMR definition followed by one later bare
occurrence; the parenthetical is deleted and the occurrence replaced. -/
theorem c8_witness :
    remove_abbreviations
        [⟨"NMR", "ab".data.length + 2, "ab".data.length + 2 + "NMR".length⟩]
        [⟨["NMR"], ["nuclear", "magnetic", "resonance"], some "CM"⟩]
        ("ab".data ++ (' ' :: '(' :: ("NMR".data ++ ')' :: " NMR.".data))) =
      Except.ok (subAbbv "NMR".data "nuclear magnetic resonance".data
        ("ab".data ++ " NMR.".data)) ∧
    ((subAbbv "NMR".data "nuclear magnetic resonance".data
        ("ab".data ++ " NMR.".data)).length : Int) =
      (("ab".data ++ (' ' :: '(' :: ("NMR".data ++ ')' :: " NMR.".data))).length : Int) +
        (countSub "NMR".data ("ab".data ++ " NMR.".data) : Int) *
          (("nuclear magnetic resonance".length : Int) - ("NMR".length : Int)) -
        (("NMR".length : Int) + 3) :=
  c8_abbreviation_removal "ab".data " NMR.".data "NMR" "nuclear magnetic resonance"
    ["nuclear", "magnetic", "resonance"] "CM" rfl
    (by decide : ∀ c ∈ "NMR".data, reSpecialChars.contains c = false)

end BetoNlp
